import Mathlib

/-!
Verification development for the StardeWiki database builder
(`StardeWiki/build_wiki_db.py`).  Python strings are modelled as `List Char`,
integers as `Int`/`Nat`, fallible code as `Except`/`Option`, and the SQLite
store as an explicit record of row lists.  Every definition below is a direct
translation of the corresponding Python function.
-/

/-- Characters matched by the regex class `[ \t]` in `normalize_ws`. -/
def isSpTab (c : Char) : Bool := c = ' ' ∨ c = '\t'

/-- Whitespace characters stripped by Python `str.strip()`
(space, tab, newline, carriage return, vertical tab, form feed). -/
def isWS (c : Char) : Bool :=
  c = ' ' ∨ c = '\t' ∨ c = '\n' ∨ c = '\r' ∨ c = Char.ofNat 11 ∨ c = Char.ofNat 12

/-- Worker for `re.sub(r"[ \t]+", " ", s)`: `inRun` records whether the
previously consumed character was part of a space/tab run (whose single
replacement space has already been emitted). -/
def csAux : Bool → List Char → List Char
  | _, [] => []
  | inRun, c :: rest =>
    if isSpTab c then
      if inRun then csAux true rest else ' ' :: csAux true rest
    else c :: csAux false rest

/-- `re.sub(r"[ \t]+", " ", s)`: collapse each run of spaces/tabs to one space. -/
def collapse_sp (l : List Char) : List Char := csAux false l

/-- Replacement text emitted for a run of `k` consecutive newlines by
`re.sub(r"\n{3,}", "\n\n", s)`: runs of three or more become two. -/
def emitNL (k : Nat) : List Char := List.replicate (min k 2) '\n'

/-- Worker for the newline-collapsing regex; `k` counts the newlines of the
current (still open) run. -/
def cnlAux : Nat → List Char → List Char
  | k, [] => emitNL k
  | k, c :: rest =>
    if c = '\n' then cnlAux (k + 1) rest
    else emitNL k ++ c :: cnlAux 0 rest

/-- `re.sub(r"\n{3,}", "\n\n", s)`. -/
def collapse_nl (l : List Char) : List Char := cnlAux 0 l

/-- Python `str.strip()`: drop leading and trailing whitespace. -/
def pystrip (l : List Char) : List Char :=
  (((l.dropWhile isWS).reverse.dropWhile isWS)).reverse

/-- `normalize_ws` from `build_wiki_db.py`: collapse horizontal whitespace
runs to one space, collapse 3+ newlines to exactly two, then strip. -/
def normalize_ws (l : List Char) : List Char :=
  pystrip (collapse_nl (collapse_sp (l)))

/-! ### Data model: blocks and chunks -/

/-- Chunking constants from the Config block of `build_wiki_db.py`. -/
def MAX_CHARS_PER_CHUNK : Nat := 1200

/-- Minimum chunk size (`MIN_CHARS_PER_CHUNK = 300`). -/
def MIN_CHARS_PER_CHUNK : Nat := 300

/-- The chunk joiner `JOINER = "\n\n"`. -/
def JOINER : List Char := ['\n', '\n']

/-- The `Block` dataclass: `(section, block_type, text)`.  The field holding
the section label is named `sect` because `section` is a Lean keyword. -/
structure Block where
  sect : List Char
  block_type : List Char
  text : List Char
deriving DecidableEq

/-- One element of the list returned by `chunk_blocks`:
`(chunk_index, section, block_type, chunk_text)`. -/
structure Chunk where
  chunk_index : Nat
  sect : List Char
  block_type : List Char
  text : List Char
deriving DecidableEq

/-- Python's `JOINER.join(texts)`. -/
def joinJ : List (List Char) → List Char
  | [] => []
  | [t] => t
  | t :: rest => t ++ JOINER ++ joinJ rest

/-- Python truthiness fallback `s or d` for an optional string
(`None` and the empty string both fall back to the default). -/
def pyOr (s : Option (List Char)) (d : List Char) : List Char :=
  match s with
  | none => d
  | some t => if t = [] then d else t

/-- Mutable state of the accumulator loop inside `chunk_blocks`:
the chunks emitted so far plus the buffer of not-yet-flushed block texts,
tagged with the section/type of the first block placed into it. -/
structure BufSt where
  chunks : List Chunk
  buf_texts : List (List Char)
  buf_section : Option (List Char)
  buf_type : Option (List Char)
deriving DecidableEq

/-- The `flush()` closure of `chunk_blocks`: join the buffered texts,
normalize, emit a chunk (indexed by the running count) if non-empty, and
clear the buffer. -/
def flushBuf (st : BufSt) : BufSt :=
  if st.buf_texts = [] then st
  else
    let text := normalize_ws (joinJ st.buf_texts)
    let chunks :=
      if text = [] then st.chunks
      else st.chunks ++ [⟨st.chunks.length, pyOr st.buf_section ("Intro".data),
                          pyOr st.buf_type ("mixed".data), text⟩]
    ⟨chunks, [], none, none⟩

/-- The `while start < len(text)` splitting loop for an oversized block:
each slice of at most `MAX_CHARS_PER_CHUNK` raw characters is normalized and
appended as its own chunk when non-empty.  `fuel` bounds the iteration count
(the caller passes the text length, which always suffices since each
iteration consumes at least one character). -/
def splitLoop (fuel : Nat) (sec bt : List Char) (text : List Char)
    (chunks : List Chunk) : List Chunk :=
  match fuel with
  | 0 => chunks
  | fuel + 1 =>
    if text = [] then chunks
    else
      let piece := normalize_ws (text.take MAX_CHARS_PER_CHUNK)
      let chunks :=
        if piece = [] then chunks
        else chunks ++ [⟨chunks.length, sec, bt, piece⟩]
      splitLoop fuel sec bt (text.drop MAX_CHARS_PER_CHUNK) chunks

/-- The body of the `for blk in blocks` loop of `chunk_blocks`. -/
def stepBlock (st : BufSt) (blk : Block) : BufSt :=
  let st :=
    if st.buf_texts = [] then
      { st with buf_section := some blk.sect, buf_type := some blk.block_type }
    else st
  let candidate := normalize_ws (joinJ (st.buf_texts ++ [blk.text]))
  if candidate.length ≤ MAX_CHARS_PER_CHUNK then
    { st with buf_texts := st.buf_texts ++ [blk.text] }
  else
    let st := flushBuf st
    if MAX_CHARS_PER_CHUNK < blk.text.length then
      { st with chunks := splitLoop blk.text.length blk.sect blk.block_type blk.text st.chunks }
    else
      { st with buf_texts := [blk.text], buf_section := some blk.sect,
                buf_type := some blk.block_type }

/-- The chunk list accumulated by the main loop of `chunk_blocks`, before the
minimum-size merge post-pass. -/
def preMergeChunks (blocks : List Block) : List Chunk :=
  (flushBuf (blocks.foldl stepBlock ⟨[], [], none, none⟩)).chunks

/-- One step of the post-pass `for ci, sec, bt, txt in chunks` loop.  The
accumulator keeps the `merged` list in reverse order so that the head is
Python's `merged[-1]`; a chunk shorter than the minimum with a predecessor is
merged into that predecessor via the joiner and re-normalized. -/
def mergeRev (acc : List Chunk) (c : Chunk) : List Chunk :=
  match acc with
  | [] => [c]
  | p :: rest =>
    if c.text.length < MIN_CHARS_PER_CHUNK then
      ⟨p.chunk_index, p.sect, p.block_type,
        normalize_ws (p.text ++ JOINER ++ c.text)⟩ :: rest
    else c :: p :: rest

/-- The minimum-size merge post-pass of `chunk_blocks`. -/
def mergePass (cs : List Chunk) : List Chunk :=
  (cs.foldl mergeRev []).reverse

/-- The final `enumerate`-based re-indexing of `chunk_blocks`. -/
def reindex (cs : List Chunk) : List Chunk :=
  cs.enum.map (fun p => ⟨p.1, p.2.sect, p.2.block_type, p.2.text⟩)

/-- `chunk_blocks` from `build_wiki_db.py`. -/
def chunk_blocks (blocks : List Block) : List Chunk :=
  reindex (mergePass (preMergeChunks blocks))

/-! ### Canonical (normalized) strings

A non-empty output of `normalize_ws` has no tabs, no two adjacent
spaces/tabs, no three consecutive newlines, and starts/ends with
non-whitespace.  Such strings are fixed points of `normalize_ws`, and the
property is preserved when two of them are joined with `JOINER`. -/

/-- Whether a string starts with a space or tab. -/
def startsSpTab : List Char → Bool
  | [] => false
  | c :: _ => isSpTab c

/-- Whether a string starts with a newline. -/
def startsNL : List Char → Bool
  | [] => false
  | c :: _ => c = '\n'

/-- No tab character anywhere. -/
def noTab (l : List Char) : Bool := l.all (fun c => !(c = '\t'))

/-- No two adjacent space-or-tab characters. -/
def noDblSp : List Char → Bool
  | [] => true
  | c :: rest => (!(isSpTab c && startsSpTab rest)) && noDblSp rest

/-- No three consecutive newline characters. -/
def noTripleNL : List Char → Bool
  | [] => true
  | c :: rest => (!(decide (c = '\n') && startsNL rest && startsNL rest.tail)) && noTripleNL rest

/-- First character (if any) is not whitespace. -/
def headOK : List Char → Bool
  | [] => true
  | c :: _ => !isWS c

/-- Last character (if any) is not whitespace. -/
def lastOK (l : List Char) : Bool :=
  match l.getLast? with
  | none => true
  | some c => !isWS c

/-- Canonical form: the shape every non-empty `normalize_ws` output has. -/
def canon (l : List Char) : Bool :=
  noTab l && noDblSp l && noTripleNL l && headOK l && lastOK l

/-! ### Page documents, flattening and identity extraction -/

/-- One raw block of a page document's section (`{"type": ..., "text": ...}`).
Missing JSON fields are modelled as `none`. -/
structure RawBlock where
  btype : Option (List Char)
  btext : Option (List Char)
deriving DecidableEq

/-- One section of a page document (`{"heading": ..., "blocks": [...]}`). -/
structure PageSection where
  heading : Option (List Char)
  blocks : List RawBlock
deriving DecidableEq

/-- A parsed page JSON document.  `pageid`/`revid` are `some n` when the raw
field can be coerced to an integer by `safe_int` and `none` otherwise
(missing or non-numeric). -/
structure PageDoc where
  pageid : Option Int
  revid : Option Int
  title : Option (List Char)
  sections : List PageSection
deriving DecidableEq

/-- `flatten_sections_to_blocks`: flatten `{section → blocks}` into ordered
`Block`s, defaulting heading to "Intro" and type to "p", normalizing text and
dropping blocks whose normalized text is empty. -/
def flatten_sections_to_blocks (page : PageDoc) : List Block :=
  page.sections.foldl (fun acc sec =>
    let heading := pystrip (pyOr sec.heading ("Intro".data))
    acc ++ sec.blocks.foldl (fun acc2 b =>
      let btype := pystrip (pyOr b.btype ("p".data))
      let text := normalize_ws (pyOr b.btext [])
      if text ≠ [] then acc2 ++ [⟨heading, btype, text⟩] else acc2) []) []

/-- `extract_page_identity`: returns `(page_id, title, revid)` or raises
`ValueError` (modelled as `Except.error ()`) when either identifier cannot
be coerced to an integer.  A missing (or empty) title falls back to
"Unknown". -/
def extract_page_identity (page : PageDoc) : Except Unit (Int × List Char × Int) :=
  match page.pageid, page.revid with
  | some p, some r => .ok (p, pyOr page.title ("Unknown".data), r)
  | _, _ => .error ()

/-! ### The SQLite store -/

/-- A row of the `page` table: `(page_id, title, revid)`. -/
structure PageRow where
  page_id : Int
  title : List Char
  revid : Int
deriving DecidableEq

/-- A row of the `chunk` table. -/
structure ChunkRow where
  chunk_id : Nat
  page_id : Int
  chunk_index : Nat
  sect : List Char
  block_type : List Char
  text : List Char
deriving DecidableEq

/-- A row of the `embedding_model` table. -/
structure ModelRow where
  model_id : Nat
  name : List Char
  dim : Nat
  distance_metric : List Char
deriving DecidableEq

/-- A row of the `embedding` table; the vector is stored as its encoded
bytes.  The floating-point `norm` column is not modelled. -/
structure EmbRow where
  chunk_id : Nat
  model_id : Nat
  vec : List Nat
deriving DecidableEq

/-- The relational store:  lists of rows plus the AUTOINCREMENT counters. -/
structure Store where
  pages : List PageRow
  chunks : List ChunkRow
  models : List ModelRow
  embeddings : List EmbRow
  nextChunkId : Nat
  nextModelId : Nat
deriving DecidableEq

/-- The freshly initialised (empty) database. -/
def emptyStore : Store := ⟨[], [], [], [], 1, 1⟩

/-- `get_existing_page`: `SELECT page_id, title, revid FROM page WHERE page_id = ?`. -/
def get_existing_page (st : Store) (page_id : Int) : Option PageRow :=
  st.pages.find? (fun r => decide (r.page_id = page_id))

/-- `upsert_page`: `INSERT ... ON CONFLICT(page_id) DO UPDATE SET title, revid`. -/
def upsert_page (st : Store) (page_id : Int) (title : List Char) (revid : Int) : Store :=
  if st.pages.any (fun r => decide (r.page_id = page_id)) then
    { st with pages := st.pages.map (fun r =>
        if r.page_id = page_id then ⟨page_id, title, revid⟩ else r) }
  else
    { st with pages := st.pages ++ [⟨page_id, title, revid⟩] }

/-- `delete_page_children`: `DELETE FROM chunk WHERE page_id = ?`; the
`ON DELETE CASCADE` constraint also removes embeddings of deleted chunks. -/
def delete_page_children (st : Store) (page_id : Int) : Store :=
  { st with
    chunks := st.chunks.filter (fun c => !(c.page_id = page_id)),
    embeddings := st.embeddings.filter (fun e =>
      !(st.chunks.any (fun c => decide (c.page_id = page_id)
        && decide (c.chunk_id = e.chunk_id)))) }

/-- `insert_chunks`: insert each produced chunk as a row for the page,
returning the updated store and the fresh `chunk_id`s (`cur.lastrowid`
collected per insert) in `chunk_index` order. -/
def insert_chunks (st : Store) (page_id : Int) : List Chunk → Store × List Nat
  | [] => (st, [])
  | c :: cs =>
    let row : ChunkRow :=
      ⟨st.nextChunkId, page_id, c.chunk_index, c.sect, c.block_type, c.text⟩
    let st' : Store :=
      { st with chunks := st.chunks ++ [row], nextChunkId := st.nextChunkId + 1 }
    let res := insert_chunks st' page_id cs
    (res.1, st.nextChunkId :: res.2)

/-- `ensure_model_row`: upsert `embedding_model` by unique name (overwriting
`dim`/`distance_metric` on conflict) and return the row's `model_id`. -/
def ensure_model_row (st : Store) (model_name : List Char) (dim : Nat)
    (distance_metric : List Char) : Store × Nat :=
  match st.models.find? (fun m => decide (m.name = model_name)) with
  | some m =>
    ({ st with models := st.models.map (fun r =>
        if r.name = model_name then ⟨r.model_id, model_name, dim, distance_metric⟩
        else r) }, m.model_id)
  | none =>
    let row : ModelRow := ⟨st.nextModelId, model_name, dim, distance_metric⟩
    ({ st with models := st.models ++ [row], nextModelId := st.nextModelId + 1 },
      st.nextModelId)

/-- `vec_to_blob_f32`: a float32 vector, given by the 32-bit patterns of its
components, serialised to bytes (4 little-endian bytes per component, as
`numpy.tobytes` produces). -/
def vec_to_blob_f32 (vec : List Nat) : List Nat :=
  vec.flatMap (fun x =>
    [x % 256, x / 256 % 256, x / 65536 % 256, x / 16777216 % 256])

/-- `blob_f32_dim`: `len(blob) // 4`. -/
def blob_f32_dim (blob : List Nat) : Nat := blob.length / 4

/-- Modelled from the spec: decoding stored bytes back into float32 bit
patterns (`numpy.frombuffer` with little-endian float32), the inverse
direction of the round trip; the repository only stores and measures blobs,
so the decoder is not part of `src/`. -/
def blob_to_f32 : List Nat → List Nat
  | b0 :: b1 :: b2 :: b3 :: rest =>
    (b0 + 256 * b1 + 65536 * b2 + 16777216 * b3) :: blob_to_f32 rest
  | _ => []

/-- The `rows` list built by `insert_embeddings` (lines 296-298): `zip`
pairs the i-th chunk id with the i-th vector and silently drops the surplus
of the longer list. -/
def embRows (model_id : Nat) (chunk_ids : List Nat) (vectors : List (List Nat)) :
    List EmbRow :=
  (chunk_ids.zip vectors).map (fun p => ⟨p.1, model_id, vec_to_blob_f32 p.2⟩)

/-- Upsert one embedding row (`ON CONFLICT(chunk_id, model_id) DO UPDATE`). -/
def upsertEmb (rows : List EmbRow) (row : EmbRow) : List EmbRow :=
  if rows.any (fun e => decide (e.chunk_id = row.chunk_id)
      && decide (e.model_id = row.model_id)) then
    rows.map (fun e =>
      if e.chunk_id = row.chunk_id ∧ e.model_id = row.model_id then row else e)
  else rows ++ [row]

/-- `insert_embeddings`: build the zipped rows and upsert them all. -/
def insert_embeddings (st : Store) (model_id : Nat) (chunk_ids : List Nat)
    (vectors : List (List Nat)) : Store :=
  { st with embeddings := (embRows model_id chunk_ids vectors).foldl upsertEmb st.embeddings }

/-! ### The per-page build loop of `build_database` -/

/-- Result of processing one page document. -/
inductive PageOutcome
  | updated
  | skipped
  | errored
deriving DecidableEq

/-- The transaction body of the rebuild path in `build_database` (the code
between `BEGIN IMMEDIATE` and `commit`).  The external embedding provider
(`embed_texts`, a network call) is an oracle parameter; its failure is an
exception raised while the transaction is open (`Except.error true`). -/
def rebuildPage (embed : List (List Char) → Except Unit (Nat × List (List Nat)))
    (do_embed : Bool) (model_name : List Char) (st : Store) (doc : PageDoc)
    (page_id : Int) (title : List Char) (revid : Int) :
    Except Bool (Store × PageOutcome) :=
  let st1 := upsert_page st page_id title revid
  let st2 := delete_page_children st1 page_id
  let blocks := flatten_sections_to_blocks doc
  let chunks := chunk_blocks blocks
  let inserted := insert_chunks st2 page_id chunks
  if do_embed then
    match embed (chunks.map (fun c => c.text)) with
    | .error _ => .error true
    | .ok r =>
      let ensured := ensure_model_row inserted.1 model_name r.1 ("cosine".data)
      let st5 := insert_embeddings ensured.1 ensured.2 inserted.2 r.2
      .ok (st5, .updated)
  else .ok (inserted.1, .updated)

/-- The body of the `try:` block for one page in `build_database`: extract
identity (raised errors happen before the transaction opens, payload
`false`), skip on matching stored revid, otherwise rebuild inside a
transaction (errors there carry payload `true` = transaction open). -/
def pageBody (embed : List (List Char) → Except Unit (Nat × List (List Nat)))
    (do_embed : Bool) (model_name : List Char) (st : Store) (doc : PageDoc) :
    Except Bool (Store × PageOutcome) :=
  match extract_page_identity doc with
  | .error _ => .error false
  | .ok (page_id, title, revid) =>
    match get_existing_page st page_id with
    | some existing =>
      if existing.revid = revid then .ok (st, .skipped)
      else rebuildPage embed do_embed model_name st doc page_id title revid
    | none => rebuildPage embed do_embed model_name st doc page_id title revid

/-- One iteration of the `for path in files` loop, including the
`except:` handler.  The handler executes `conn.execute("ROLLBACK;")`
unconditionally: if a transaction is open, SQLite rolls it back (the store
reverts to its pre-transaction state and the loop continues); if no
transaction is active — which is the case when the exception was raised
before `BEGIN IMMEDIATE` — SQLite raises
`OperationalError: cannot rollback - no transaction is active` inside the
handler, and that exception propagates out of `build_database`, aborting
the whole batch (`Except.error ()`). -/
def processPage (embed : List (List Char) → Except Unit (Nat × List (List Nat)))
    (do_embed : Bool) (model_name : List Char) (st : Store) (doc : PageDoc) :
    Except Unit (Store × PageOutcome) :=
  match pageBody embed do_embed model_name st doc with
  | .ok r => .ok r
  | .error txOpen => if txOpen then .ok (st, .errored) else .error ()

/-- The page loop of `build_database`, threading the store and the
`updated_pages`/`skipped_pages` counters. -/
def buildLoop (embed : List (List Char) → Except Unit (Nat × List (List Nat)))
    (do_embed : Bool) (model_name : List Char) :
    Store → Nat → Nat → List PageDoc → Except Unit (Store × Nat × Nat)
  | st, updated, skipped, [] => .ok (st, updated, skipped)
  | st, updated, skipped, doc :: rest =>
    match processPage embed do_embed model_name st doc with
    | .error e => .error e
    | .ok (st', .skipped) => buildLoop embed do_embed model_name st' updated (skipped + 1) rest
    | .ok (st', .updated) => buildLoop embed do_embed model_name st' (updated + 1) skipped rest
    | .ok (st', .errored) => buildLoop embed do_embed model_name st' updated skipped rest

/-- `build_database`: initialise the store and process every page document. -/
def build_database (embed : List (List Char) → Except Unit (Nat × List (List Nat)))
    (do_embed : Bool) (model_name : List Char) (docs : List PageDoc) :
    Except Unit (Store × Nat × Nat) :=
  buildLoop embed do_embed model_name emptyStore 0 0 docs

/-! ### Length bounds for the normalization stages -/

theorem csAux_length_le (b : Bool) (l : List Char) : (csAux b l).length ≤ l.length := by
  induction l generalizing b with
  | nil => simp [csAux]
  | cons c rest ih =>
    simp only [csAux]
    by_cases h : isSpTab c = true
    · simp only [h, if_true]
      cases b with
      | true => simpa using Nat.le_succ_of_le (ih true)
      | false => simpa using Nat.succ_le_succ (ih true)
    · simp only [h]
      simpa using Nat.succ_le_succ (ih false)

theorem emitNL_length_le (k : Nat) : (emitNL k).length ≤ k := by
  simp [emitNL, Nat.min_le_left]

theorem cnlAux_length_le (k : Nat) (l : List Char) :
    (cnlAux k l).length ≤ k + l.length := by
  induction l generalizing k with
  | nil => simpa [cnlAux] using emitNL_length_le k
  | cons c rest ih =>
    simp only [cnlAux]
    by_cases h : c = '\n'
    · simp only [h, if_true, List.length_cons]
      have := ih (k + 1)
      omega
    · simp only [h, if_false, List.length_append, List.length_cons]
      have h1 := emitNL_length_le k
      have h2 := ih 0
      omega

theorem dropWhile_length_le (p : Char → Bool) (l : List Char) :
    (l.dropWhile p).length ≤ l.length := by
  induction l with
  | nil => simp
  | cons c rest ih =>
    simp only [List.dropWhile]
    by_cases h : p c = true
    · simp only [h, List.length_cons]
      omega
    · simp [h]

theorem pystrip_length_le (l : List Char) : (pystrip l).length ≤ l.length := by
  unfold pystrip
  calc ((l.dropWhile isWS).reverse.dropWhile isWS).reverse.length
      = ((l.dropWhile isWS).reverse.dropWhile isWS).length := by simp
    _ ≤ (l.dropWhile isWS).reverse.length := dropWhile_length_le _ _
    _ = (l.dropWhile isWS).length := by simp
    _ ≤ l.length := dropWhile_length_le _ _

theorem normalize_ws_length_le (l : List Char) :
    (normalize_ws l).length ≤ l.length := by
  unfold normalize_ws collapse_nl collapse_sp
  have h1 := pystrip_length_le (cnlAux 0 (csAux false l))
  have h2 := cnlAux_length_le 0 (csAux false l)
  have h3 := csAux_length_le false l
  omega

theorem noTab_cons {c : Char} {rest : List Char} (h : noTab (c :: rest) = true) :
    (!(c = '\t')) = true ∧ noTab rest = true := by
  simpa [noTab, List.all_cons, Bool.and_eq_true] using h

theorem noDblSp_cons {c : Char} {rest : List Char} (h : noDblSp (c :: rest) = true) :
    (!(isSpTab c && startsSpTab rest)) = true ∧ noDblSp rest = true := by
  simpa [noDblSp, Bool.and_eq_true] using h

theorem noTripleNL_cons {c : Char} {rest : List Char} (h : noTripleNL (c :: rest) = true) :
    (!(decide (c = '\n') && startsNL rest && startsNL rest.tail)) = true
      ∧ noTripleNL rest = true := by
  simpa [noTripleNL, Bool.and_eq_true] using h

theorem csAux_eq_self (l : List Char) : ∀ b : Bool, noTab l = true → noDblSp l = true →
    (b = true → startsSpTab l = false) → csAux b l = l := by
  induction l with
  | nil => intro b _ _ _; rfl
  | cons c rest ih =>
    intro b hTab hDbl hb
    obtain ⟨hc0, hTab'⟩ := noTab_cons hTab
    obtain ⟨hd0, hDbl'⟩ := noDblSp_cons hDbl
    by_cases hsp : isSpTab c = true
    · have hc : c = ' ' := by
        simp only [isSpTab, decide_eq_true_eq] at hsp
        rcases hsp with h | h
        · exact h
        · exfalso
          rw [h] at hc0
          simp at hc0
      have hb' : b = false := by
        cases b with
        | false => rfl
        | true => exact absurd (hb rfl) (by simp [startsSpTab, hsp])
      have hrest : startsSpTab rest = false := by
        rw [hsp] at hd0; simpa using hd0
      subst hb'
      simp only [csAux, hsp, if_true, Bool.false_eq_true, if_false, hc]
      exact congrArg (' ' :: ·) (ih true hTab' hDbl' (fun _ => hrest))
    · simp only [csAux, hsp, Bool.false_eq_true, if_false]
      exact congrArg (c :: ·) (ih false hTab' hDbl' (by simp))

theorem noTripleNL_append_right (xs ys : List Char)
    (h : noTripleNL (xs ++ ys) = true) : noTripleNL ys = true := by
  induction xs with
  | nil => exact h
  | cons c xs ih => exact ih (noTripleNL_cons (by simpa using h)).2

theorem replicate_append_cons {α : Type} (k : Nat) (a : α) (l : List α) :
    List.replicate k a ++ a :: l = List.replicate (k + 1) a ++ l := by
  rw [List.replicate_succ', List.append_assoc]
  rfl

theorem cnlAux_eq_self (l : List Char) : ∀ k : Nat, k ≤ 2 →
    noTripleNL (List.replicate k '\n' ++ l) = true →
    cnlAux k l = List.replicate k '\n' ++ l := by
  induction l with
  | nil =>
    intro k hk _
    simp [cnlAux, emitNL, Nat.min_eq_left hk]
  | cons c rest ih =>
    intro k hk h
    by_cases hc : c = '\n'
    · subst hc
      have hk1 : k ≤ 1 := by
        by_contra hgt
        have hk2 : k = 2 := by omega
        subst hk2
        simp [noTripleNL, startsNL, List.replicate] at h
      rw [replicate_append_cons] at h
      have hstep : cnlAux k ('\n' :: rest) = cnlAux (k + 1) rest := by
        simp [cnlAux]
      rw [hstep, ih (k + 1) (by omega) h, replicate_append_cons]
    · have h' : noTripleNL rest = true := by
        have hx : noTripleNL ((List.replicate k '\n' ++ [c]) ++ rest) = true := by
          simpa using h
        exact noTripleNL_append_right _ _ hx
      simp only [cnlAux, hc, if_false]
      rw [ih 0 (by omega) (by simpa using h')]
      simp [emitNL, Nat.min_eq_left hk]

theorem dropWhile_eq_self_of_headOK (l : List Char) (h : headOK l = true) :
    l.dropWhile isWS = l := by
  cases l with
  | nil => rfl
  | cons c rest =>
    have hc : isWS c = false := by simpa [headOK] using h
    simp [List.dropWhile, hc]

theorem headOK_reverse (l : List Char) : headOK l.reverse = lastOK l := by
  have : headOK l.reverse =
      (match l.reverse.head? with | none => true | some c => !isWS c) := by
    cases l.reverse <;> rfl
  rw [this, List.head?_reverse]
  rfl

theorem pystrip_eq_self (l : List Char) (h1 : headOK l = true) (h2 : lastOK l = true) :
    pystrip l = l := by
  unfold pystrip
  rw [dropWhile_eq_self_of_headOK l h1,
      dropWhile_eq_self_of_headOK l.reverse (by rw [headOK_reverse]; exact h2),
      List.reverse_reverse]

theorem canon_parts {l : List Char} (h : canon l = true) :
    noTab l = true ∧ noDblSp l = true ∧ noTripleNL l = true
      ∧ headOK l = true ∧ lastOK l = true := by
  have := by simpa [canon, Bool.and_eq_true] using h
  tauto

theorem normalize_ws_eq_self_of_canon (l : List Char) (h : canon l = true) :
    normalize_ws l = l := by
  obtain ⟨h1, h2, h3, h4, h5⟩ := canon_parts h
  unfold normalize_ws collapse_sp collapse_nl
  rw [csAux_eq_self l false h1 h2 (by simp)]
  have hcn := cnlAux_eq_self l 0 (by omega) (by simpa using h3)
  simp only [List.replicate, List.nil_append] at hcn
  rw [hcn]
  exact pystrip_eq_self l h4 h5

theorem noTab_csAux (l : List Char) : ∀ b : Bool, noTab (csAux b l) = true := by
  induction l with
  | nil => intro b; rfl
  | cons c rest ih =>
    intro b
    by_cases hsp : isSpTab c = true
    · cases b with
      | true => simpa [csAux, hsp] using ih true
      | false =>
        simp only [csAux, hsp, if_true, Bool.false_eq_true, if_false]
        simpa [noTab, List.all_cons] using ih true
    · have hc : (!(c = '\t')) = true := by
        simp only [isSpTab, decide_eq_true_eq] at hsp
        simp only [Bool.not_eq_true', decide_eq_false_iff_not]
        intro h; exact hsp (Or.inr h)
      simp only [csAux, hsp, Bool.false_eq_true, if_false]
      simpa [noTab, List.all_cons, hc] using ih false

theorem noDblSp_csAux (l : List Char) : ∀ b : Bool, noDblSp (csAux b l) = true
    ∧ (b = true → startsSpTab (csAux b l) = false) := by
  induction l with
  | nil => intro b; exact ⟨rfl, fun _ => rfl⟩
  | cons c rest ih =>
    intro b
    by_cases hsp : isSpTab c = true
    · cases b with
      | true => simpa [csAux, hsp] using ih true
      | false =>
        simp only [csAux, hsp, if_true, Bool.false_eq_true, if_false]
        refine ⟨?_, fun h => by cases h⟩
        have h1 := (ih true).1
        have h2 := (ih true).2 rfl
        simp [noDblSp, h2, h1]
    · simp only [csAux, hsp, Bool.false_eq_true, if_false]
      refine ⟨?_, fun _ => by simpa [startsSpTab] using hsp⟩
      have h1 := (ih false).1
      simp [noDblSp, hsp, h1]

theorem noTab_replicate_nl (m : Nat) : noTab (List.replicate m '\n') = true := by
  induction m with
  | zero => rfl
  | succ m ih => simp [noTab, List.replicate_succ, List.all_cons]

theorem noTab_append {xs ys : List Char} (hx : noTab xs = true) (hy : noTab ys = true) :
    noTab (xs ++ ys) = true := by
  simp [noTab, List.all_append] at *
  exact ⟨hx, hy⟩

theorem noTab_cnlAux (l : List Char) : ∀ k : Nat, noTab l = true →
    noTab (cnlAux k l) = true := by
  induction l with
  | nil => intro k _; simpa [cnlAux, emitNL] using noTab_replicate_nl (min k 2)
  | cons c rest ih =>
    intro k h
    obtain ⟨hc, hrest⟩ := noTab_cons h
    by_cases hnl : c = '\n'
    · simpa [cnlAux, hnl] using ih (k + 1) hrest
    · simp only [cnlAux, hnl, Bool.false_eq_true, if_false]
      refine noTab_append (noTab_replicate_nl _) ?_
      simpa [noTab, List.all_cons, hc] using ih 0 hrest

theorem startsSpTab_replicate_nl (m : Nat) :
    startsSpTab (List.replicate m '\n') = false := by
  cases m with
  | zero => rfl
  | succ m => simp [List.replicate_succ, startsSpTab, isSpTab]

theorem noDblSp_replicate_nl (m : Nat) : noDblSp (List.replicate m '\n') = true := by
  induction m with
  | zero => rfl
  | succ m ih =>
    simp [List.replicate_succ, noDblSp, startsSpTab_replicate_nl, isSpTab, ih]

theorem noDblSp_nlrep_append (m : Nat) (x : List Char) (hx : noDblSp x = true) :
    noDblSp (List.replicate m '\n' ++ x) = true := by
  induction m with
  | zero => simpa using hx
  | succ m ih =>
    simp only [List.replicate_succ, List.cons_append, noDblSp, Bool.and_eq_true]
    exact ⟨by simp [isSpTab], ih⟩

theorem noDblSp_cnlAux (l : List Char) : ∀ k : Nat, noDblSp l = true →
    noDblSp (cnlAux k l) = true
      ∧ (startsSpTab (cnlAux k l) = true → k = 0 ∧ startsSpTab l = true) := by
  induction l with
  | nil =>
    intro k _
    refine ⟨by simpa [cnlAux, emitNL] using noDblSp_replicate_nl (min k 2), fun h => ?_⟩
    rw [show cnlAux k [] = emitNL k from rfl] at h
    rw [emitNL] at h
    rw [startsSpTab_replicate_nl] at h
    cases h
  | cons c rest ih =>
    intro k h
    obtain ⟨hc, hrest⟩ := noDblSp_cons h
    by_cases hnl : c = '\n'
    · subst hnl
      refine ⟨by simpa [cnlAux] using (ih (k + 1) hrest).1, fun hs => ?_⟩
      rw [show cnlAux k ('\n' :: rest) = cnlAux (k + 1) rest from by simp [cnlAux]] at hs
      exact absurd ((ih (k + 1) hrest).2 hs).1 (by omega)
    · simp only [cnlAux, hnl, Bool.false_eq_true, if_false]
      have hX := ih 0 hrest
      have hcons : noDblSp (c :: cnlAux 0 rest) = true := by
        simp only [noDblSp, Bool.and_eq_true]
        refine ⟨?_, hX.1⟩
        by_cases hspc : isSpTab c = true
        · by_cases hsX : startsSpTab (cnlAux 0 rest) = true
          · have := (hX.2 hsX).2
            rw [hspc, this] at hc
            cases hc
          · simp [hspc, hsX]
        · simp [hspc]
      refine ⟨noDblSp_nlrep_append _ _ hcons, fun hs => ?_⟩
      cases hk : min k 2 with
      | zero =>
        have hk0 : k = 0 := by omega
        subst hk0
        simp only [emitNL, Nat.zero_min, List.replicate, List.nil_append,
          startsSpTab] at hs
        exact ⟨rfl, by simpa [startsSpTab] using hs⟩
      | succ m =>
        rw [emitNL, hk, List.replicate_succ] at hs
        simp [startsSpTab, isSpTab] at hs

theorem noTripleNL_short (l : List Char) (h : l.length ≤ 2) : noTripleNL l = true := by
  match l, h with
  | [], _ => rfl
  | [a], _ => simp [noTripleNL, startsNL]
  | [a, b], _ => simp [noTripleNL, startsNL]

theorem noTripleNL_nlrep_cons (m : Nat) (hm : m ≤ 2) (c : Char) (hc : ¬(c = '\n'))
    (X : List Char) (hX : noTripleNL (c :: X) = true) :
    noTripleNL (List.replicate m '\n' ++ c :: X) = true := by
  interval_cases m
  · simpa using hX
  · simpa [noTripleNL, startsNL, hc, Bool.and_eq_true, List.replicate] using hX
  · simpa [noTripleNL, startsNL, hc, Bool.and_eq_true, List.replicate] using hX

theorem noTripleNL_cnlAux (l : List Char) : ∀ k : Nat, noTripleNL (cnlAux k l) = true := by
  induction l with
  | nil =>
    intro k
    rw [show cnlAux k [] = emitNL k from rfl]
    refine noTripleNL_short _ ?_
    simp only [emitNL, List.length_replicate]
    omega
  | cons c rest ih =>
    intro k
    by_cases hnl : c = '\n'
    · simpa [cnlAux, hnl] using ih (k + 1)
    · simp only [cnlAux, hnl, Bool.false_eq_true, if_false, emitNL]
      refine noTripleNL_nlrep_cons _ (Nat.min_le_right k 2) c hnl _ ?_
      simp [noTripleNL, hnl, ih 0]

theorem startsSpTab_append_of (xs ys : List Char) (h : startsSpTab xs = true) :
    startsSpTab (xs ++ ys) = true := by
  cases xs with
  | nil => cases h
  | cons c xs => simpa [startsSpTab] using h

theorem startsNL_append_of (xs ys : List Char) (h : startsNL xs = true) :
    startsNL (xs ++ ys) = true := by
  cases xs with
  | nil => cases h
  | cons c xs => simpa [startsNL] using h

theorem noTab_append_left {xs ys : List Char} (h : noTab (xs ++ ys) = true) :
    noTab xs = true := by
  simp only [noTab, List.all_append, Bool.and_eq_true] at h
  exact h.1

theorem noTab_append_right {xs ys : List Char} (h : noTab (xs ++ ys) = true) :
    noTab ys = true := by
  simp only [noTab, List.all_append, Bool.and_eq_true] at h
  exact h.2

theorem noDblSp_append_right {xs ys : List Char} (h : noDblSp (xs ++ ys) = true) :
    noDblSp ys = true := by
  induction xs with
  | nil => exact h
  | cons c xs ih => exact ih (noDblSp_cons (by simpa using h)).2

theorem noDblSp_append_left {xs ys : List Char} (h : noDblSp (xs ++ ys) = true) :
    noDblSp xs = true := by
  induction xs with
  | nil => rfl
  | cons c xs ih =>
    obtain ⟨hc, hrest⟩ := noDblSp_cons (by simpa using h)
    simp only [noDblSp, Bool.and_eq_true]
    refine ⟨?_, ih hrest⟩
    by_cases h1 : isSpTab c = true
    · by_cases h2 : startsSpTab xs = true
      · rw [h1, startsSpTab_append_of xs ys h2] at hc
        cases hc
      · simp [h1, h2]
    · simp [h1]

theorem noTripleNL_append_left {xs ys : List Char} (h : noTripleNL (xs ++ ys) = true) :
    noTripleNL xs = true := by
  induction xs with
  | nil => rfl
  | cons c xs ih =>
    obtain ⟨hc, hrest⟩ := noTripleNL_cons (by simpa using h)
    simp only [noTripleNL, Bool.and_eq_true]
    refine ⟨?_, ih hrest⟩
    by_cases h1 : decide (c = '\n') = true
    · by_cases h2 : startsNL xs = true
      · by_cases h3 : startsNL xs.tail = true
        · exfalso
          have e2 := startsNL_append_of xs ys h2
          have e3 : startsNL ((xs ++ ys).tail) = true := by
            cases xs with
            | nil => cases h2
            | cons a xs' => simpa using startsNL_append_of xs' ys (by simpa using h3)
          rw [h1, e2, e3] at hc
          cases hc
        · simp [h1, h2, h3]
      · simp [h1, h2]
    · simp [h1]

theorem headOK_dropWhile (l : List Char) : headOK (l.dropWhile isWS) = true := by
  induction l with
  | nil => rfl
  | cons c rest ih =>
    by_cases h : isWS c = true
    · simpa [List.dropWhile, h] using ih
    · simp [List.dropWhile, h, headOK]

theorem headOK_append_left {xs ys : List Char} (h : headOK (xs ++ ys) = true) :
    headOK xs = true := by
  cases xs with
  | nil => rfl
  | cons c xs => simpa [headOK] using h

theorem canon_pystrip (l : List Char) (h1 : noTab l = true) (h2 : noDblSp l = true)
    (h3 : noTripleNL l = true) : canon (pystrip l) = true := by
  have hdec1 : l = l.takeWhile isWS ++ l.dropWhile isWS :=
    (List.takeWhile_append_dropWhile _ _).symm
  have hm1 : noTab (l.dropWhile isWS) = true := noTab_append_right (hdec1 ▸ h1)
  have hm2 : noDblSp (l.dropWhile isWS) = true := noDblSp_append_right (hdec1 ▸ h2)
  have hm3 : noTripleNL (l.dropWhile isWS) = true := noTripleNL_append_right _ _ (hdec1 ▸ h3)
  have hm4 : headOK (l.dropWhile isWS) = true := headOK_dropWhile l
  have hdec2 : l.dropWhile isWS = pystrip l
      ++ ((l.dropWhile isWS).reverse.takeWhile isWS).reverse := by
    conv_lhs => rw [← List.reverse_reverse (l.dropWhile isWS),
      ← List.takeWhile_append_dropWhile isWS (l.dropWhile isWS).reverse]
    rw [List.reverse_append]
    rfl
  have p1 : noTab (pystrip l) = true := noTab_append_left (hdec2 ▸ hm1)
  have p2 : noDblSp (pystrip l) = true := noDblSp_append_left (hdec2 ▸ hm2)
  have p3 : noTripleNL (pystrip l) = true := noTripleNL_append_left (hdec2 ▸ hm3)
  have p4 : headOK (pystrip l) = true := headOK_append_left (hdec2 ▸ hm4)
  have p5 : lastOK (pystrip l) = true := by
    rw [← headOK_reverse]
    unfold pystrip
    rw [List.reverse_reverse]
    exact headOK_dropWhile _
  simp [canon, p1, p2, p3, p4, p5]

theorem canon_normalize_ws (l : List Char) : canon (normalize_ws l) = true := by
  unfold normalize_ws collapse_nl collapse_sp
  exact canon_pystrip _ (noTab_cnlAux _ 0 (noTab_csAux l false))
    (noDblSp_cnlAux _ 0 (noDblSp_csAux l false).1).1
    (noTripleNL_cnlAux _ 0)

theorem startsNL_eq_false_of_headOK (t : List Char) (h : headOK t = true) :
    startsNL t = false := by
  cases t with
  | nil => rfl
  | cons c rest =>
    have hc : isWS c = false := by simpa [headOK] using h
    simp only [startsNL, decide_eq_false_iff_not]
    intro he
    subst he
    simp [isWS] at hc

theorem startsSpTab_eq_false_of_headOK (t : List Char) (h : headOK t = true) :
    startsSpTab t = false := by
  cases t with
  | nil => rfl
  | cons c rest =>
    have hc : isWS c = false := by simpa [headOK] using h
    simp only [startsSpTab]
    by_contra hs
    rw [Bool.not_eq_false] at hs
    simp only [isSpTab, decide_eq_true_eq] at hs
    rcases hs with h | h <;> (subst h; simp [isWS] at hc)

theorem noDblSp_append_special {xs ys : List Char} (hy0 : startsSpTab ys = false)
    (hx : noDblSp xs = true) (hy : noDblSp ys = true) : noDblSp (xs ++ ys) = true := by
  induction xs with
  | nil => simpa using hy
  | cons c xs ih =>
    obtain ⟨hc, hrest⟩ := noDblSp_cons hx
    simp only [List.cons_append, noDblSp, Bool.and_eq_true]
    refine ⟨?_, ih hrest⟩
    by_cases h1 : isSpTab c = true
    · cases xs with
      | nil => simp [h1, hy0]
      | cons a xs' =>
        have hs : isSpTab a = false := by
          by_contra hcon
          rw [Bool.not_eq_false] at hcon
          rw [h1, show startsSpTab (a :: xs') = true from by
            simpa [startsSpTab] using hcon] at hc
          cases hc
        simp [h1, startsSpTab, hs]
    · simp [h1]

theorem lastOK_cons_cons {c a : Char} {p : List Char}
    (h : lastOK (c :: a :: p) = true) : lastOK (a :: p) = true := by
  simpa [lastOK, List.getLast?_cons_cons] using h

theorem lastOK_congr {l l' : List Char} (h : l.getLast? = l'.getLast?) :
    lastOK l = lastOK l' := by
  unfold lastOK
  rw [h]

theorem noTripleNL_build {c : Char} {rest : List Char}
    (h1 : decide (c = '\n') = false ∨ startsNL rest = false ∨ startsNL rest.tail = false)
    (h2 : noTripleNL rest = true) : noTripleNL (c :: rest) = true := by
  simp only [noTripleNL, Bool.and_eq_true, Bool.not_eq_true']
  constructor
  · rcases h1 with h | h | h <;> simp [h]
  · exact h2

theorem noTripleNL_cond_cases {c : Char} {rest : List Char}
    (h : (!(decide (c = '\n') && startsNL rest && startsNL rest.tail)) = true) :
    decide (c = '\n') = false ∨ startsNL rest = false ∨ startsNL rest.tail = false := by
  simp only [Bool.not_eq_true', Bool.and_eq_false_iff] at h
  tauto

theorem noTripleNL_join (p t : List Char) (hp : noTripleNL p = true)
    (hlast : lastOK p = true) (hhead : headOK t = true) (ht : noTripleNL t = true) :
    noTripleNL (p ++ '\n' :: '\n' :: t) = true := by
  have hsnlt : startsNL t = false := startsNL_eq_false_of_headOK t hhead
  have hbase : noTripleNL ('\n' :: '\n' :: t) = true := by
    refine noTripleNL_build (Or.inr (Or.inr (by simpa using hsnlt))) ?_
    exact noTripleNL_build (Or.inr (Or.inl hsnlt)) ht
  induction p with
  | nil => simpa using hbase
  | cons c p' ih =>
    obtain ⟨hc0, hp'⟩ := noTripleNL_cons hp
    cases p' with
    | nil =>
      have hcws : isWS c = false := by simpa [lastOK, List.getLast?] using hlast
      have hcnl : decide (c = '\n') = false := by
        simp only [decide_eq_false_iff_not]
        intro he
        subst he
        simp [isWS] at hcws
      simpa using noTripleNL_build (Or.inl hcnl) hbase
    | cons a p'' =>
      have hlast' : lastOK (a :: p'') = true := lastOK_cons_cons hlast
      have hrec := ih hp' hlast'
      have hgoal : noTripleNL (c :: ((a :: p'') ++ '\n' :: '\n' :: t)) = true := by
        refine noTripleNL_build ?_ (by simpa using hrec)
        cases p'' with
        | nil =>
          have haws : isWS a = false := by simpa [lastOK, List.getLast?] using hlast'
          have hanl : decide (a = '\n') = false := by
            simp only [decide_eq_false_iff_not]
            intro he
            subst he
            simp [isWS] at haws
          exact Or.inr (Or.inl (by simp [startsNL, hanl]))
        | cons b p''' =>
          rcases noTripleNL_cond_cases hc0 with h | h | h
          · exact Or.inl h
          · exact Or.inr (Or.inl (by simpa [startsNL] using h))
          · exact Or.inr (Or.inr (by simpa [startsNL] using h))
      simpa using hgoal

theorem headOK_append_of_left {xs ys : List Char} (hne : xs ≠ [])
    (h : headOK xs = true) : headOK (xs ++ ys) = true := by
  cases xs with
  | nil => exact absurd rfl hne
  | cons c xs => simpa [headOK] using h

theorem canon_append_joiner (p t : List Char) (hp : canon p = true) (ht : canon t = true)
    (hpne : p ≠ []) (htne : t ≠ []) : canon (p ++ JOINER ++ t) = true := by
  obtain ⟨p1, p2, p3, p4, p5⟩ := canon_parts hp
  obtain ⟨t1, t2, t3, t4, t5⟩ := canon_parts ht
  have hJ : p ++ JOINER ++ t = p ++ '\n' :: '\n' :: t := by
    simp [JOINER]
  rw [hJ]
  have q1 : noTab (p ++ '\n' :: '\n' :: t) = true := by
    refine noTab_append p1 ?_
    simpa [noTab, List.all_cons] using t1
  have hy' : noDblSp ('\n' :: '\n' :: t) = true := by
    simp only [noDblSp, Bool.and_eq_true]
    exact ⟨by simp [isSpTab], by simp [isSpTab], t2⟩
  have q2 : noDblSp (p ++ '\n' :: '\n' :: t) = true :=
    noDblSp_append_special (by simp [startsSpTab, isSpTab]) p2 hy'
  have q3 : noTripleNL (p ++ '\n' :: '\n' :: t) = true := noTripleNL_join p t p3 p5 t4 t3
  have q4 : headOK (p ++ '\n' :: '\n' :: t) = true := headOK_append_of_left hpne p4
  have q5 : lastOK (p ++ '\n' :: '\n' :: t) = true := by
    cases t with
    | nil => exact absurd rfl htne
    | cons c rest =>
      have hg : (p ++ '\n' :: '\n' :: c :: rest).getLast? = (c :: rest).getLast? := by
        rw [List.getLast?_append, List.getLast?_cons_cons, List.getLast?_cons_cons]
        rcases Option.isSome_iff_exists.mp
          (by simp [List.getLast?_isSome] : (c :: rest).getLast?.isSome = true) with ⟨v, hv⟩
        rw [hv]
        rfl
      rw [lastOK_congr hg]
      exact t5
  simp [canon, q1, q2, q3, q4, q5]

theorem normalize_ws_join_of_canon (p t : List Char) (hp : canon p = true)
    (ht : canon t = true) (hpne : p ≠ []) (htne : t ≠ []) :
    normalize_ws (p ++ JOINER ++ t) = p ++ JOINER ++ t :=
  normalize_ws_eq_self_of_canon _ (canon_append_joiner p t hp ht hpne htne)

theorem isSpTab_eq_false_of_not_isWS {c : Char} (hc : isWS c = false) :
    isSpTab c = false := by
  simp only [isSpTab, decide_eq_false_iff_not]
  intro h
  rcases h with h | h <;> (subst h; simp [isWS] at hc)

theorem not_nl_of_not_isWS {c : Char} (hc : isWS c = false) :
    decide (c = '\n') = false := by
  simp only [decide_eq_false_iff_not]
  intro h
  subst h
  simp [isWS] at hc

theorem noDblSp_replicate (c : Char) (hsp : isSpTab c = false) (n : Nat) :
    noDblSp (List.replicate n c) = true := by
  induction n with
  | zero => rfl
  | succ m ih => simp [List.replicate_succ, noDblSp, hsp, ih]

theorem noTripleNL_replicate (c : Char) (hnl : decide (c = '\n') = false) (n : Nat) :
    noTripleNL (List.replicate n c) = true := by
  induction n with
  | zero => rfl
  | succ m ih => simp [List.replicate_succ, noTripleNL, hnl, ih]

theorem canon_replicate (c : Char) (hc : isWS c = false) (n : Nat) :
    canon (List.replicate n c) = true := by
  have hsp := isSpTab_eq_false_of_not_isWS hc
  have hnl := not_nl_of_not_isWS hc
  have h1 : noTab (List.replicate n c) = true := by
    simp [noTab, List.all_replicate]
    exact Or.inr (fun h => by subst h; simp [isWS] at hc)
  have h2 : noDblSp (List.replicate n c) = true := noDblSp_replicate c hsp n
  have h3 : noTripleNL (List.replicate n c) = true := noTripleNL_replicate c hnl n
  have h4 : headOK (List.replicate n c) = true := by
    cases n with
    | zero => rfl
    | succ m => simp [List.replicate_succ, headOK, hc]
  have h5 : lastOK (List.replicate n c) = true := by
    rw [← headOK_reverse, List.reverse_replicate]
    exact h4
  simp [canon, h1, h2, h3, h4, h5]

theorem normalize_ws_replicate (c : Char) (hc : isWS c = false) (n : Nat) :
    normalize_ws (List.replicate n c) = List.replicate n c :=
  normalize_ws_eq_self_of_canon _ (canon_replicate c hc n)

/-! ### Invariants of the chunking loop -/

theorem flushBuf_buf_texts (st : BufSt) : (flushBuf st).buf_texts = [] := by
  unfold flushBuf
  by_cases hb : st.buf_texts = [] <;> simp [hb]

theorem flushBuf_chunks_le (st : BufSt)
    (h1 : ∀ ch ∈ st.chunks, ch.text.length ≤ MAX_CHARS_PER_CHUNK)
    (h2 : st.buf_texts ≠ [] →
      (normalize_ws (joinJ st.buf_texts)).length ≤ MAX_CHARS_PER_CHUNK) :
    ∀ ch ∈ (flushBuf st).chunks, ch.text.length ≤ MAX_CHARS_PER_CHUNK := by
  unfold flushBuf
  by_cases hb : st.buf_texts = []
  · simpa [hb] using h1
  · simp only [hb, if_false]
    by_cases hT : normalize_ws (joinJ st.buf_texts) = []
    · simpa [hT] using h1
    · simp only [hT, if_false]
      intro ch hch
      rcases List.mem_append.mp hch with h | h
      · exact h1 ch h
      · rcases List.mem_singleton.mp h with rfl
        exact h2 hb

theorem splitLoop_chunks_le (sec bt : List Char) :
    ∀ (fuel : Nat) (text : List Char) (chunks : List Chunk),
    (∀ ch ∈ chunks, ch.text.length ≤ MAX_CHARS_PER_CHUNK) →
    ∀ ch ∈ splitLoop fuel sec bt text chunks, ch.text.length ≤ MAX_CHARS_PER_CHUNK := by
  intro fuel
  induction fuel with
  | zero => intro text chunks h; simpa [splitLoop] using h
  | succ fuel ih =>
    intro text chunks h
    unfold splitLoop
    by_cases ht : text = []
    · simpa [ht] using h
    · simp only [ht, if_false]
      apply ih
      by_cases hp : normalize_ws (text.take MAX_CHARS_PER_CHUNK) = []
      · simpa [hp] using h
      · simp only [hp, if_false]
        intro ch hch
        rcases List.mem_append.mp hch with hm | hm
        · exact h ch hm
        · rcases List.mem_singleton.mp hm with rfl
          calc (normalize_ws (text.take MAX_CHARS_PER_CHUNK)).length
              ≤ (text.take MAX_CHARS_PER_CHUNK).length := normalize_ws_length_le _
            _ ≤ MAX_CHARS_PER_CHUNK := by
                rw [List.length_take]
                exact Nat.min_le_left _ _

theorem stepBlock_inv (st : BufSt) (blk : Block)
    (h1 : ∀ ch ∈ st.chunks, ch.text.length ≤ MAX_CHARS_PER_CHUNK)
    (h2 : st.buf_texts ≠ [] →
      (normalize_ws (joinJ st.buf_texts)).length ≤ MAX_CHARS_PER_CHUNK) :
    (∀ ch ∈ (stepBlock st blk).chunks, ch.text.length ≤ MAX_CHARS_PER_CHUNK)
      ∧ ((stepBlock st blk).buf_texts ≠ [] →
        (normalize_ws (joinJ (stepBlock st blk).buf_texts)).length
          ≤ MAX_CHARS_PER_CHUNK) := by
  unfold stepBlock
  set st' := if st.buf_texts = [] then
      { st with buf_section := some blk.sect, buf_type := some blk.block_type }
    else st with hst'
  have hch' : st'.chunks = st.chunks := by
    rw [hst']
    by_cases hb : st.buf_texts = [] <;> simp [hb]
  have hbt' : st'.buf_texts = st.buf_texts := by
    rw [hst']
    by_cases hb : st.buf_texts = [] <;> simp [hb]
  by_cases hc : (normalize_ws (joinJ (st'.buf_texts ++ [blk.text]))).length
      ≤ MAX_CHARS_PER_CHUNK
  · simp only [hc, if_true]
    exact ⟨by simpa [hch'] using h1, fun _ => trivial⟩
  · simp only [hc, if_false]
    have hflush : ∀ ch ∈ (flushBuf st').chunks, ch.text.length ≤ MAX_CHARS_PER_CHUNK := by
      apply flushBuf_chunks_le
      · simpa [hch'] using h1
      · rw [hbt']
        exact h2
    by_cases hbig : MAX_CHARS_PER_CHUNK < blk.text.length
    · simp only [hbig, if_true]
      refine ⟨splitLoop_chunks_le _ _ _ _ _ hflush, fun hne => ?_⟩
      exact absurd (flushBuf_buf_texts st') (by simpa using hne)
    · simp only [hbig, if_false]
      refine ⟨hflush, fun _ => ?_⟩
      show (normalize_ws (joinJ [blk.text])).length ≤ MAX_CHARS_PER_CHUNK
      have hj : joinJ [blk.text] = blk.text := rfl
      rw [hj]
      calc (normalize_ws blk.text).length ≤ blk.text.length := normalize_ws_length_le _
        _ ≤ MAX_CHARS_PER_CHUNK := by omega

theorem foldl_stepBlock_inv (blocks : List Block) :
    ∀ st : BufSt,
    (∀ ch ∈ st.chunks, ch.text.length ≤ MAX_CHARS_PER_CHUNK) →
    (st.buf_texts ≠ [] →
      (normalize_ws (joinJ st.buf_texts)).length ≤ MAX_CHARS_PER_CHUNK) →
    (∀ ch ∈ (blocks.foldl stepBlock st).chunks, ch.text.length ≤ MAX_CHARS_PER_CHUNK)
      ∧ ((blocks.foldl stepBlock st).buf_texts ≠ [] →
        (normalize_ws (joinJ (blocks.foldl stepBlock st).buf_texts)).length
          ≤ MAX_CHARS_PER_CHUNK) := by
  induction blocks with
  | nil => intro st h1 h2; exact ⟨h1, h2⟩
  | cons b bs ih =>
    intro st h1 h2
    have h := stepBlock_inv st b h1 h2
    exact ih _ h.1 h.2

theorem preMergeChunks_le (blocks : List Block) :
    ∀ ch ∈ preMergeChunks blocks, ch.text.length ≤ MAX_CHARS_PER_CHUNK := by
  unfold preMergeChunks
  have h := foldl_stepBlock_inv blocks ⟨[], [], none, none⟩ (by simp) (by simp)
  exact flushBuf_chunks_le _ h.1 h.2

theorem flushBuf_chunks_canon (st : BufSt)
    (h1 : ∀ ch ∈ st.chunks, canon ch.text = true ∧ ch.text ≠ []) :
    ∀ ch ∈ (flushBuf st).chunks, canon ch.text = true ∧ ch.text ≠ [] := by
  unfold flushBuf
  by_cases hb : st.buf_texts = []
  · simpa [hb] using h1
  · simp only [hb, if_false]
    by_cases hT : normalize_ws (joinJ st.buf_texts) = []
    · simpa [hT] using h1
    · simp only [hT, if_false]
      intro ch hch
      rcases List.mem_append.mp hch with h | h
      · exact h1 ch h
      · rcases List.mem_singleton.mp h with rfl
        exact ⟨canon_normalize_ws _, hT⟩

theorem splitLoop_chunks_canon (sec bt : List Char) :
    ∀ (fuel : Nat) (text : List Char) (chunks : List Chunk),
    (∀ ch ∈ chunks, canon ch.text = true ∧ ch.text ≠ []) →
    ∀ ch ∈ splitLoop fuel sec bt text chunks, canon ch.text = true ∧ ch.text ≠ [] := by
  intro fuel
  induction fuel with
  | zero => intro text chunks h; simpa [splitLoop] using h
  | succ fuel ih =>
    intro text chunks h
    unfold splitLoop
    by_cases ht : text = []
    · simpa [ht] using h
    · simp only [ht, if_false]
      apply ih
      by_cases hp : normalize_ws (text.take MAX_CHARS_PER_CHUNK) = []
      · simpa [hp] using h
      · simp only [hp, if_false]
        intro ch hch
        rcases List.mem_append.mp hch with hm | hm
        · exact h ch hm
        · rcases List.mem_singleton.mp hm with rfl
          exact ⟨canon_normalize_ws _, hp⟩

theorem stepBlock_canon (st : BufSt) (blk : Block)
    (h1 : ∀ ch ∈ st.chunks, canon ch.text = true ∧ ch.text ≠ []) :
    ∀ ch ∈ (stepBlock st blk).chunks, canon ch.text = true ∧ ch.text ≠ [] := by
  unfold stepBlock
  set st' := if st.buf_texts = [] then
      { st with buf_section := some blk.sect, buf_type := some blk.block_type }
    else st with hst'
  have hch' : st'.chunks = st.chunks := by
    rw [hst']
    by_cases hb : st.buf_texts = [] <;> simp [hb]
  have h1' : ∀ ch ∈ st'.chunks, canon ch.text = true ∧ ch.text ≠ [] := by
    simpa [hch'] using h1
  by_cases hc : (normalize_ws (joinJ (st'.buf_texts ++ [blk.text]))).length
      ≤ MAX_CHARS_PER_CHUNK
  · simpa [hc] using h1'
  · simp only [hc, if_false]
    have hflush := flushBuf_chunks_canon st' h1'
    by_cases hbig : MAX_CHARS_PER_CHUNK < blk.text.length
    · simp only [hbig, if_true]
      exact splitLoop_chunks_canon _ _ _ _ _ hflush
    · simp only [hbig, if_false]
      exact hflush

theorem foldl_stepBlock_canon (blocks : List Block) :
    ∀ st : BufSt, (∀ ch ∈ st.chunks, canon ch.text = true ∧ ch.text ≠ []) →
    ∀ ch ∈ (blocks.foldl stepBlock st).chunks, canon ch.text = true ∧ ch.text ≠ [] := by
  induction blocks with
  | nil => intro st h; exact h
  | cons b bs ih => intro st h; exact ih _ (stepBlock_canon st b h)

theorem preMergeChunks_canon (blocks : List Block) :
    ∀ ch ∈ preMergeChunks blocks, canon ch.text = true ∧ ch.text ≠ [] := by
  unfold preMergeChunks
  exact flushBuf_chunks_canon _ (foldl_stepBlock_canon blocks ⟨[], [], none, none⟩ (by simp))

theorem mergeRev_inv (acc : List Chunk) (c : Chunk)
    (hacc1 : ∀ ch ∈ acc, canon ch.text = true ∧ ch.text ≠ [])
    (hacc2 : ∀ ch ∈ acc.dropLast, MIN_CHARS_PER_CHUNK ≤ ch.text.length)
    (hc : canon c.text = true ∧ c.text ≠ []) :
    (∀ ch ∈ mergeRev acc c, canon ch.text = true ∧ ch.text ≠ [])
      ∧ (∀ ch ∈ (mergeRev acc c).dropLast, MIN_CHARS_PER_CHUNK ≤ ch.text.length) := by
  cases acc with
  | nil =>
    refine ⟨fun ch hch => ?_, by simp [mergeRev]⟩
    rcases List.mem_singleton.mp (by simpa [mergeRev] using hch) with rfl
    exact hc
  | cons p rest =>
    have hp := hacc1 p (List.mem_cons_self p rest)
    by_cases hlen : c.text.length < MIN_CHARS_PER_CHUNK
    · have heq : normalize_ws (p.text ++ JOINER ++ c.text) = p.text ++ JOINER ++ c.text :=
        normalize_ws_join_of_canon _ _ hp.1 hc.1 hp.2 hc.2
      have hcanon' : canon (p.text ++ JOINER ++ c.text) = true :=
        canon_append_joiner _ _ hp.1 hc.1 hp.2 hc.2
      simp only [mergeRev, hlen, if_true]
      constructor
      · intro ch hch
        rcases List.mem_cons.mp hch with rfl | hmem
        · refine ⟨?_, ?_⟩
          · show canon (normalize_ws (p.text ++ JOINER ++ c.text)) = true
            rw [heq]
            exact hcanon'
          · show normalize_ws (p.text ++ JOINER ++ c.text) ≠ []
            rw [heq]
            cases hpt : p.text with
            | nil => exact absurd hpt hp.2
            | cons a as => simp
        · exact hacc1 ch (List.mem_cons_of_mem p hmem)
      · cases rest with
        | nil => simp
        | cons r rs =>
          intro ch hch
          rw [List.dropLast_cons₂] at hch
          rcases List.mem_cons.mp hch with rfl | hmem
          · have hpmin : MIN_CHARS_PER_CHUNK ≤ p.text.length := by
              refine hacc2 p ?_
              rw [List.dropLast_cons₂]
              exact List.mem_cons_self p _
            show MIN_CHARS_PER_CHUNK ≤ (normalize_ws (p.text ++ JOINER ++ c.text)).length
            rw [heq]
            simp only [List.length_append, JOINER, List.length_cons, List.length_nil]
            omega
          · refine hacc2 ch ?_
            rw [List.dropLast_cons₂]
            exact List.mem_cons_of_mem p hmem
    · simp only [mergeRev, hlen, if_false]
      constructor
      · intro ch hch
        rcases List.mem_cons.mp hch with rfl | hmem
        · exact hc
        · exact hacc1 ch hmem
      · intro ch hch
        rw [List.dropLast_cons₂] at hch
        rcases List.mem_cons.mp hch with rfl | hmem
        · omega
        · exact hacc2 ch hmem

theorem foldl_mergeRev_inv (cs : List Chunk) :
    ∀ acc : List Chunk,
    (∀ ch ∈ cs, canon ch.text = true ∧ ch.text ≠ []) →
    (∀ ch ∈ acc, canon ch.text = true ∧ ch.text ≠ []) →
    (∀ ch ∈ acc.dropLast, MIN_CHARS_PER_CHUNK ≤ ch.text.length) →
    (∀ ch ∈ cs.foldl mergeRev acc, canon ch.text = true ∧ ch.text ≠ [])
      ∧ (∀ ch ∈ (cs.foldl mergeRev acc).dropLast,
          MIN_CHARS_PER_CHUNK ≤ ch.text.length) := by
  induction cs with
  | nil => intro acc _ h1 h2; exact ⟨h1, h2⟩
  | cons c cs ih =>
    intro acc hcs h1 h2
    have hstep := mergeRev_inv acc c h1 h2 (hcs c (List.mem_cons_self c cs))
    exact ih _ (fun ch hch => hcs ch (List.mem_cons_of_mem c hch)) hstep.1 hstep.2

theorem mergePass_min (cs : List Chunk)
    (h : ∀ ch ∈ cs, canon ch.text = true ∧ ch.text ≠ []) :
    ∀ (i : Nat) (hi : i < (mergePass cs).length), 1 ≤ i →
      MIN_CHARS_PER_CHUNK ≤ ((mergePass cs).get ⟨i, hi⟩).text.length := by
  intro i hi h1
  have hinv := foldl_mergeRev_inv cs [] h (by simp) (by simp)
  unfold mergePass at hi ⊢
  set acc := cs.foldl mergeRev [] with hacc
  have hlen : i < acc.length := by
    rw [List.length_reverse] at hi
    exact hi
  have hrev : acc.reverse.get ⟨i, hi⟩ = acc.get ⟨acc.length - 1 - i, by omega⟩ := by
    simp [List.get_eq_getElem, List.getElem_reverse]
  rw [hrev]
  have hj : acc.length - 1 - i < acc.dropLast.length := by
    rw [List.length_dropLast]
    omega
  have hdl : acc.dropLast.get ⟨acc.length - 1 - i, hj⟩
      = acc.get ⟨acc.length - 1 - i, by omega⟩ := by
    simp [List.get_eq_getElem, List.getElem_dropLast]
  rw [← hdl]
  exact hinv.2 _ (List.get_mem _ _ _)

theorem reindex_length (cs : List Chunk) : (reindex cs).length = cs.length := by
  simp [reindex, List.enum_length]

theorem reindex_map_index (cs : List Chunk) :
    (reindex cs).map (fun c => c.chunk_index) = List.range cs.length := by
  unfold reindex
  rw [List.map_map]
  have hfun : ((fun c : Chunk => c.chunk_index) ∘ fun p : Nat × Chunk =>
      (⟨p.1, p.2.sect, p.2.block_type, p.2.text⟩ : Chunk)) = Prod.fst := by
    funext p
    rfl
  rw [hfun, List.enum_map_fst]

theorem reindex_get_text (cs : List Chunk) (i : Nat) (hi : i < (reindex cs).length) :
    ((reindex cs).get ⟨i, hi⟩).text
      = (cs.get ⟨i, by simpa [reindex_length] using hi⟩).text := by
  unfold reindex at hi ⊢
  simp [List.get_eq_getElem, List.getElem_map, List.getElem_enum]

/-! ### Claim theorems -/

theorem vec_to_blob_length (v : List Nat) :
    (vec_to_blob_f32 v).length = 4 * v.length := by
  induction v with
  | nil => rfl
  | cons x v ih =>
    simp only [vec_to_blob_f32, List.flatMap_cons] at ih ⊢
    simp [List.length_append, ih]
    omega

theorem blob_roundtrip_aux (v : List Nat) (hbound : ∀ x ∈ v, x < 2 ^ 32) :
    blob_to_f32 (vec_to_blob_f32 v) = v := by
  induction v with
  | nil => rfl
  | cons x v ih =>
    have hx : x < 2 ^ 32 := hbound x (List.mem_cons_self x v)
    have hrest : ∀ y ∈ v, y < 2 ^ 32 := fun y hy => hbound y (List.mem_cons_of_mem x hy)
    rw [show vec_to_blob_f32 (x :: v)
        = x % 256 :: (x / 256 % 256) :: (x / 65536 % 256) :: (x / 16777216 % 256)
          :: vec_to_blob_f32 v from by simp [vec_to_blob_f32, List.flatMap_cons]]
    simp only [blob_to_f32]
    rw [ih hrest]
    congr 1
    omega

/-- C9: for every float32 vector (given by the 32-bit patterns of its
components), `vec_to_blob_f32` produces exactly 4 bytes per component (so
`blob_f32_dim` recovers the dimension), and decoding the bytes yields the
original components bit-exactly. -/
theorem vec_to_blob_roundtrip (v : List Nat) :
    (vec_to_blob_f32 v).length = 4 * v.length
      ∧ blob_f32_dim (vec_to_blob_f32 v) = v.length
      ∧ ((∀ x ∈ v, x < 2 ^ 32) → blob_to_f32 (vec_to_blob_f32 v) = v) :=
  ⟨vec_to_blob_length v,
    by simp [blob_f32_dim, vec_to_blob_length v],
    fun h => blob_roundtrip_aux v h⟩

/-- C9 witness: round trip at a concrete two-component vector. -/
theorem vec_to_blob_roundtrip_witness :
    blob_to_f32 (vec_to_blob_f32 [5, 4000000000]) = [5, 4000000000] :=
  (vec_to_blob_roundtrip [5, 4000000000]).2.2 (by decide)

/-- C10: the `rows` list that `insert_embeddings` builds (and writes with
`executemany`) has exactly `min` of the two input lengths as its length, and
its i-th row pairs the i-th chunk id with the i-th encoded vector; surplus
elements of the longer input are silently dropped and no error is raised
(the function is total). -/
theorem insert_embeddings_zip (model_id : Nat) (chunk_ids : List Nat)
    (vectors : List (List Nat)) :
    (embRows model_id chunk_ids vectors).length = min chunk_ids.length vectors.length
      ∧ ∀ (i : Nat) (h1 : i < chunk_ids.length) (h2 : i < vectors.length)
          (h : i < (embRows model_id chunk_ids vectors).length),
          (embRows model_id chunk_ids vectors).get ⟨i, h⟩
            = ⟨chunk_ids.get ⟨i, h1⟩, model_id,
                vec_to_blob_f32 (vectors.get ⟨i, h2⟩)⟩ := by
  constructor
  · simp [embRows, List.length_zip]
  · intro i h1 h2 h
    simp [embRows, List.get_eq_getElem, List.getElem_map, List.getElem_zip]

/-- C10 witness: three chunk ids and two vectors produce exactly two rows,
and row 1 pairs chunk id 20 with the second vector. -/
theorem insert_embeddings_zip_witness :
    (embRows 7 [10, 20, 30] [[1], [2]]).length = min [10, 20, 30].length [[1], [2]].length
      ∧ (embRows 7 [10, 20, 30] [[1], [2]]).get ⟨1, by decide⟩
          = ⟨20, 7, vec_to_blob_f32 [2]⟩ :=
  ⟨(insert_embeddings_zip 7 [10, 20, 30] [[1], [2]]).1,
    (insert_embeddings_zip 7 [10, 20, 30] [[1], [2]]).2 1 (by decide) (by decide) (by decide)⟩

theorem insert_chunks_rows (page_id : Int) (chunks : List Chunk) :
    ∀ st : Store,
    ((insert_chunks st page_id chunks).1).chunks.map (fun r => (r.page_id, r.chunk_index))
      = st.chunks.map (fun r => (r.page_id, r.chunk_index))
        ++ chunks.map (fun c => (page_id, c.chunk_index)) := by
  induction chunks with
  | nil => intro st; simp [insert_chunks]
  | cons c cs ih =>
    intro st
    simp only [insert_chunks]
    rw [ih]
    simp

theorem filter_page_of_delete (p : Int) :
    ∀ l : List ChunkRow,
      (l.filter (fun c => !(decide (c.page_id = p)))).filter
          (fun r => decide (r.page_id = p)) = [] := by
  intro l
  induction l with
  | nil => rfl
  | cons c cs ih =>
    cases hc : decide (c.page_id = p) <;> simp [List.filter_cons, hc, ih]

theorem delete_children_filter (st : Store) (p : Int) :
    (delete_page_children st p).chunks.filter (fun r => decide (r.page_id = p)) = [] := by
  show (st.chunks.filter (fun c => !(decide (c.page_id = p)))).filter
      (fun r => decide (r.page_id = p)) = []
  exact filter_page_of_delete p st.chunks

theorem insert_chunks_filter_map (p : Int) (cs : List Chunk) :
    ∀ st : Store,
      (((insert_chunks st p cs).1).chunks.filter (fun r => decide (r.page_id = p))).map
          (fun r => (r.chunk_index, r.sect, r.block_type, r.text))
        = (st.chunks.filter (fun r => decide (r.page_id = p))).map
            (fun r => (r.chunk_index, r.sect, r.block_type, r.text))
          ++ cs.map (fun c => (c.chunk_index, c.sect, c.block_type, c.text)) := by
  induction cs with
  | nil => intro st; simp [insert_chunks]
  | cons c cs ih =>
    intro st
    simp only [insert_chunks]
    rw [ih]
    simp [List.filter_append, List.filter_cons]

theorem ensure_model_chunks (st : Store) (mn : List Char) (dim : Nat) (dm : List Char) :
    ((ensure_model_row st mn dim dm).1).chunks = st.chunks := by
  unfold ensure_model_row
  cases st.models.find? (fun m => decide (m.name = mn)) <;> rfl

theorem rebuildPage_chunks {e : List (List Char) → Except Unit (Nat × List (List Nat))}
    {d : Bool} {m : List Char} {st : Store} {doc : PageDoc} {p : Int} {t : List Char}
    {r : Int} {st2 : Store} {out : PageOutcome}
    (h : rebuildPage e d m st doc p t r = .ok (st2, out)) :
    st2.chunks
      = ((insert_chunks (delete_page_children (upsert_page st p t r) p) p
          (chunk_blocks (flatten_sections_to_blocks doc))).1).chunks := by
  unfold rebuildPage at h
  cases d with
  | false =>
    rw [if_neg (by simp)] at h
    cases h
    rfl
  | true =>
    rw [if_pos rfl] at h
    cases hemb : e ((chunk_blocks (flatten_sections_to_blocks doc)).map (fun c => c.text)) with
    | error u => rw [hemb] at h; cases h
    | ok rr =>
      rw [hemb] at h
      cases h
      show ((ensure_model_row
            ((insert_chunks (delete_page_children (upsert_page st p t r) p) p
              (chunk_blocks (flatten_sections_to_blocks doc))).1) m rr.1 ("cosine".data)).1).chunks
          = ((insert_chunks (delete_page_children (upsert_page st p t r) p) p
              (chunk_blocks (flatten_sections_to_blocks doc))).1).chunks
      rw [ensure_model_chunks]

/-- C5: the re-indexing step gives the chunks of `chunk_blocks` the indices
`0, …, n−1` in the exact order the chunker emitted them while walking the
source blocks front to back.  Composing the rebuild path of `build_database`
(`upsert_page` → `delete_page_children` → `insert_chunks`, plus the optional
embedding step): after any successful rebuild of a page, the chunk rows
stored for that page — whatever the store held before — are exactly the
chunks produced from the page's source blocks, in that same order, field by
field.  Consequently the stored `chunk_index` sequence for the page is
exactly `0, 1, …, n−1`: the set is `{0, …, n−1}` with no gaps, no
duplicates and no leftover rows, and ascending `chunk_index` order is the
order the text appeared in the source blocks. -/
theorem chunk_indices_contiguous
    (e : List (List Char) → Except Unit (Nat × List (List Nat))) (d : Bool)
    (m : List Char) (st : Store) (doc : PageDoc) (page_id : Int) (title : List Char)
    (revid : Int) (st2 : Store) (out : PageOutcome)
    (hreb : rebuildPage e d m st doc page_id title revid = .ok (st2, out)) :
    (∀ blocks : List Block,
        (chunk_blocks blocks).map (fun c => c.chunk_index)
          = List.range (chunk_blocks blocks).length)
      ∧ (st2.chunks.filter (fun r => decide (r.page_id = page_id))).map
            (fun r => (r.chunk_index, r.sect, r.block_type, r.text))
          = (chunk_blocks (flatten_sections_to_blocks doc)).map
              (fun c => (c.chunk_index, c.sect, c.block_type, c.text))
      ∧ (st2.chunks.filter (fun r => decide (r.page_id = page_id))).map
            (fun r => r.chunk_index)
          = List.range
              (st2.chunks.filter (fun r => decide (r.page_id = page_id))).length := by
  have hidx : ∀ blocks : List Block,
      (chunk_blocks blocks).map (fun c => c.chunk_index)
        = List.range (chunk_blocks blocks).length := by
    intro blocks
    unfold chunk_blocks
    rw [reindex_map_index, reindex_length]
  have hrows : (st2.chunks.filter (fun r => decide (r.page_id = page_id))).map
        (fun r => (r.chunk_index, r.sect, r.block_type, r.text))
      = (chunk_blocks (flatten_sections_to_blocks doc)).map
          (fun c => (c.chunk_index, c.sect, c.block_type, c.text)) := by
    rw [rebuildPage_chunks hreb, insert_chunks_filter_map, delete_children_filter]
    simp
  refine ⟨hidx, hrows, ?_⟩
  have hlen : (st2.chunks.filter (fun r => decide (r.page_id = page_id))).length
      = (chunk_blocks (flatten_sections_to_blocks doc)).length := by
    have h := congrArg List.length hrows
    simpa using h
  have hfst : (st2.chunks.filter (fun r => decide (r.page_id = page_id))).map
        (fun r => r.chunk_index)
      = (chunk_blocks (flatten_sections_to_blocks doc)).map (fun c => c.chunk_index) := by
    have h := congrArg (List.map Prod.fst) hrows
    simpa [List.map_map, Function.comp_def] using h
  rw [hfst, hidx (flatten_sections_to_blocks doc), hlen]

/-- C5 witness: rebuilding a one-block page document into the empty store
succeeds, and the resulting store holds exactly one chunk row for the page,
with index 0, section "H", type "p" and text "hello" — the single chunk
`chunk_blocks` produces from the page's source block. -/
theorem chunk_indices_contiguous_witness :
    ((⟨[⟨1, "A".data, 10⟩], [⟨1, 1, 0, "H".data, "p".data, "hello".data⟩],
        [], [], 2, 1⟩ : Store).chunks.filter (fun r => decide (r.page_id = 1))).map
        (fun r => (r.chunk_index, r.sect, r.block_type, r.text))
      = (chunk_blocks (flatten_sections_to_blocks
          ⟨some 1, some 10, some ("A".data),
            [⟨some ("H".data), [⟨some ("p".data), some ("hello".data)⟩]⟩]⟩)).map
          (fun c => (c.chunk_index, c.sect, c.block_type, c.text)) :=
  (chunk_indices_contiguous (fun _ => .error ()) false ("m".data) emptyStore
      ⟨some 1, some 10, some ("A".data),
        [⟨some ("H".data), [⟨some ("p".data), some ("hello".data)⟩]⟩]⟩
      1 ("A".data) 10
      ⟨[⟨1, "A".data, 10⟩], [⟨1, 1, 0, "H".data, "p".data, "hello".data⟩], [], [], 2, 1⟩
      .updated (by rfl)).2.1

/-- C3 (code bug): an exception raised inside a page's open transaction
(here: the embedding provider failing) is rolled back — the store is
unchanged and the loop continues with the next page, neither counter
incremented.  But an identity error raised before `BEGIN IMMEDIATE` reaches
the `except` handler with no transaction active, so the handler's
`conn.execute("ROLLBACK;")` itself raises and the whole batch aborts: the
second (well-formed) document is never processed. -/
theorem per_page_error_handling :
    build_database (fun _ => .error ()) true ("m".data)
        [⟨some 1, some 1, some ("A".data),
           [⟨some ("H".data), [⟨some ("p".data), some ("x".data)⟩]⟩]⟩,
         ⟨some 2, some 5, some ("B".data), []⟩]
      = .ok (emptyStore, 0, 0)
      ∧ build_database (fun _ => .ok (1, [[0]])) false ("m".data)
          [⟨some 1, none, some ("A".data), []⟩,
           ⟨some 2, some 5, some ("B".data), []⟩]
        = .error () := by
  exact ⟨rfl, rfl⟩

/-- C8 (code bug): `extract_page_identity` fails exactly when the page or
revision identifier cannot be coerced to an integer, succeeds with the two
integers otherwise, and substitutes the sentinel "Unknown" for a missing
title.  However a document missing `revid` is not "reported as errored":
the failure happens before the page's transaction opens, so the handler's
bare `ROLLBACK` raises and the batch aborts (no row is created, but the
run dies instead of continuing). -/
theorem extract_identity_behavior :
    (∀ doc : PageDoc, extract_page_identity doc = .error ()
        ↔ (doc.pageid = none ∨ doc.revid = none))
      ∧ extract_page_identity ⟨some 7, none, some ("T".data), []⟩ = .error ()
      ∧ extract_page_identity ⟨none, some 3, some ("T".data), []⟩ = .error ()
      ∧ extract_page_identity ⟨some 7, some 3, none, []⟩ = .ok (7, "Unknown".data, 3)
      ∧ extract_page_identity ⟨some 7, some 3, some ("T".data), []⟩ = .ok (7, "T".data, 3)
      ∧ build_database (fun _ => .error ()) false ("m".data)
          [⟨some 7, none, some ("T".data), []⟩] = .error () := by
  refine ⟨?_, rfl, rfl, rfl, rfl, rfl⟩
  intro doc
  cases doc with
  | mk p r t s => cases p <;> cases r <;> simp [extract_page_identity]

set_option maxRecDepth 400000 in
/-- C1 counterexample: a 1200-character block followed by a 250-character
block.  The main loop flushes the first block as a 1200-character chunk and
the second becomes a 250-character chunk; the minimum-size merge pass then
folds the short chunk into its predecessor, producing a single chunk of
1452 characters — exceeding the maximum chunk size. -/
theorem chunk_size_bound_counterexample :
    (chunk_blocks [⟨"Intro".data, "p".data, List.replicate 1200 'a'⟩,
        ⟨"Intro".data, "p".data, List.replicate 250 'b'⟩]).map (fun c => c.text.length)
      = [1452]
      ∧ ¬ (∀ ch ∈ chunk_blocks [⟨"Intro".data, "p".data, List.replicate 1200 'a'⟩,
            ⟨"Intro".data, "p".data, List.replicate 250 'b'⟩],
          ch.text.length ≤ MAX_CHARS_PER_CHUNK) := by
  decide

/-- C1 amended: every chunk produced by the packing loop and the
oversized-block splitter — i.e. the list `chunk_blocks` builds before its
minimum-size merge pass — has text length ≤ MAX_CHARS_PER_CHUNK (1200),
slices of oversized blocks included; only the merge pass can exceed the
bound, by absorbing an under-minimum successor chunk. -/
theorem chunk_size_bound_pre_merge (blocks : List Block) :
    ∀ ch ∈ preMergeChunks blocks, ch.text.length ≤ MAX_CHARS_PER_CHUNK :=
  preMergeChunks_le blocks

/-- C1 amended witness: the single pre-merge chunk of a small page obeys
the bound. -/
theorem chunk_size_bound_pre_merge_witness :
    (⟨0, "Intro".data, "p".data, "hello".data⟩ : Chunk).text.length
      ≤ MAX_CHARS_PER_CHUNK :=
  chunk_size_bound_pre_merge [⟨"Intro".data, "p".data, "hello".data⟩] _ (by decide)

/-- C6: in the list returned by `chunk_blocks`, every chunk with a
predecessor (index ≥ 1) has text length at least MIN_CHARS_PER_CHUNK (300);
only the first chunk of a page may be shorter. -/
theorem min_size_merge (blocks : List Block) (i : Nat)
    (hi : i < (chunk_blocks blocks).length) (h1 : 1 ≤ i) :
    MIN_CHARS_PER_CHUNK ≤ ((chunk_blocks blocks).get ⟨i, hi⟩).text.length := by
  unfold chunk_blocks at hi ⊢
  rw [reindex_get_text]
  exact mergePass_min _ (preMergeChunks_canon blocks) i _ h1

set_option maxRecDepth 400000 in
/-- C6 witness: two blocks of 900 and 400 characters give two chunks; the
second (index 1) has length 400 ≥ 300. -/
theorem min_size_merge_witness :
    MIN_CHARS_PER_CHUNK ≤ ((chunk_blocks [⟨"S".data, "p".data, List.replicate 900 'a'⟩,
        ⟨"S".data, "p".data, List.replicate 400 'b'⟩]).get ⟨1, by decide⟩).text.length :=
  min_size_merge [⟨"S".data, "p".data, List.replicate 900 'a'⟩,
    ⟨"S".data, "p".data, List.replicate 400 'b'⟩] 1 (by decide) (by decide)

set_option maxRecDepth 400000 in
set_option maxHeartbeats 2000000 in
/-- C7 counterexample: two blocks of different kinds ("p" and "list") small
enough to be packed into one chunk; the merged chunk records kind "p" (the
first contributor), not "mixed". -/
theorem mixed_kind_counterexample :
    (chunk_blocks [⟨"Intro".data, "p".data, List.replicate 400 'a'⟩,
        ⟨"Intro".data, "list".data, List.replicate 400 'b'⟩]).map (fun c => c.block_type)
      = ["p".data]
      ∧ "p".data ≠ "mixed".data := by
  decide

/-- C7 amended: a chunk merged from two buffered blocks records the section
and kind of the *first* block placed into its buffer (with "Intro"/"mixed"
only as fallbacks for an empty section/kind), regardless of the second
block's kind. -/
theorem merged_chunk_kind (b1 b2 : Block)
    (h1 : (normalize_ws b1.text).length ≤ MAX_CHARS_PER_CHUNK)
    (h2 : (normalize_ws (joinJ [b1.text, b2.text])).length ≤ MAX_CHARS_PER_CHUNK)
    (h3 : normalize_ws (joinJ [b1.text, b2.text]) ≠ []) :
    chunk_blocks [b1, b2]
      = [⟨0, pyOr (some b1.sect) ("Intro".data), pyOr (some b1.block_type) ("mixed".data),
          normalize_ws (joinJ [b1.text, b2.text])⟩] := by
  have hstep1 : stepBlock ⟨[], [], none, none⟩ b1
      = ⟨[], [b1.text], some b1.sect, some b1.block_type⟩ := by
    unfold stepBlock
    simp only [if_true]
    have hj : joinJ ([] ++ [b1.text]) = b1.text := rfl
    rw [hj]
    simp [h1]
  have hstep2 : stepBlock ⟨[], [b1.text], some b1.sect, some b1.block_type⟩ b2
      = ⟨[], [b1.text, b2.text], some b1.sect, some b1.block_type⟩ := by
    unfold stepBlock
    simp only [List.cons_ne_nil, if_false]
    have hj : joinJ ([b1.text] ++ [b2.text]) = joinJ [b1.text, b2.text] := rfl
    rw [hj]
    simp [h2]
  have hpre : preMergeChunks [b1, b2]
      = [⟨0, pyOr (some b1.sect) ("Intro".data), pyOr (some b1.block_type) ("mixed".data),
          normalize_ws (joinJ [b1.text, b2.text])⟩] := by
    unfold preMergeChunks
    simp only [List.foldl_cons, List.foldl_nil]
    rw [hstep1, hstep2]
    unfold flushBuf
    rw [if_neg (by simp : ¬(([b1.text, b2.text] : List (List Char)) = []))]
    show (if normalize_ws (joinJ [b1.text, b2.text]) = [] then ([] : List Chunk)
        else [] ++ [⟨(0 : Nat), pyOr (some b1.sect) ("Intro".data),
            pyOr (some b1.block_type) ("mixed".data),
            normalize_ws (joinJ [b1.text, b2.text])⟩])
      = [⟨0, pyOr (some b1.sect) ("Intro".data), pyOr (some b1.block_type) ("mixed".data),
          normalize_ws (joinJ [b1.text, b2.text])⟩]
    rw [if_neg h3]
    rfl
  unfold chunk_blocks
  rw [hpre]
  rfl

/-- C7 amended witness: two small blocks of kinds "p" and "list" merge into
one chunk recording kind "p". -/
theorem merged_chunk_kind_witness :
    chunk_blocks [⟨"Intro".data, "p".data, "aaa".data⟩,
        ⟨"Intro".data, "list".data, "bbb".data⟩]
      = [⟨0, pyOr (some ("Intro".data)) ("Intro".data),
          pyOr (some ("p".data)) ("mixed".data),
          normalize_ws (joinJ ["aaa".data, "bbb".data])⟩] :=
  merged_chunk_kind ⟨"Intro".data, "p".data, "aaa".data⟩
    ⟨"Intro".data, "list".data, "bbb".data⟩ (by decide) (by decide) (by decide)

theorem splitLoop_nil (fuel : Nat) (s t : List Char) (chunks : List Chunk) :
    splitLoop fuel s t [] chunks = chunks := by
  cases fuel <;> simp [splitLoop]

theorem splitLoop_replicate_step (fuel : Nat) (s t : List Char) (n : Nat) (hn : 0 < n)
    (chunks : List Chunk) :
    splitLoop (fuel + 1) s t (List.replicate n 'a') chunks
      = splitLoop fuel s t (List.replicate (n - MAX_CHARS_PER_CHUNK) 'a')
          (chunks ++ [⟨chunks.length, s, t,
            List.replicate (min MAX_CHARS_PER_CHUNK n) 'a'⟩]) := by
  have hne : ¬(List.replicate n 'a' = []) := by
    simp only [ne_eq, List.replicate_eq_nil_iff] at *
    omega
  have hpe : normalize_ws ((List.replicate n 'a').take MAX_CHARS_PER_CHUNK)
      = List.replicate (min MAX_CHARS_PER_CHUNK n) 'a' := by
    rw [List.take_replicate]
    exact normalize_ws_replicate 'a' (by decide) _
  have hpne : ¬(List.replicate (min MAX_CHARS_PER_CHUNK n) 'a' = []) := by
    simp only [List.replicate_eq_nil_iff]
    simp only [MAX_CHARS_PER_CHUNK]
    omega
  conv_lhs => unfold splitLoop
  rw [if_neg hne]
  show splitLoop fuel s t ((List.replicate n 'a').drop MAX_CHARS_PER_CHUNK)
      (if normalize_ws ((List.replicate n 'a').take MAX_CHARS_PER_CHUNK) = [] then chunks
       else chunks ++ [⟨chunks.length, s, t,
         normalize_ws ((List.replicate n 'a').take MAX_CHARS_PER_CHUNK)⟩])
    = splitLoop fuel s t (List.replicate (n - MAX_CHARS_PER_CHUNK) 'a')
        (chunks ++ [⟨chunks.length, s, t,
          List.replicate (min MAX_CHARS_PER_CHUNK n) 'a'⟩])
  rw [hpe, if_neg hpne, List.drop_replicate]

theorem stepBlock_oversized (blk : Block)
    (hcand : ¬((normalize_ws (joinJ [blk.text])).length ≤ MAX_CHARS_PER_CHUNK))
    (hbig : MAX_CHARS_PER_CHUNK < blk.text.length) :
    stepBlock ⟨[], [], none, none⟩ blk
      = ⟨splitLoop blk.text.length blk.sect blk.block_type blk.text [], [],
          some blk.sect, some blk.block_type⟩ := by
  unfold stepBlock
  show (if (normalize_ws (joinJ [blk.text])).length ≤ MAX_CHARS_PER_CHUNK then
        (⟨[], [blk.text], some blk.sect, some blk.block_type⟩ : BufSt)
      else if MAX_CHARS_PER_CHUNK < blk.text.length then
        (⟨splitLoop blk.text.length blk.sect blk.block_type blk.text [], [],
          some blk.sect, some blk.block_type⟩ : BufSt)
      else (⟨[], [blk.text], some blk.sect, some blk.block_type⟩ : BufSt))
    = ⟨splitLoop blk.text.length blk.sect blk.block_type blk.text [], [],
        some blk.sect, some blk.block_type⟩
  rw [if_neg hcand, if_pos hbig]

theorem chunk_blocks_rep5000 :
    chunk_blocks [⟨"Intro".data, "p".data, List.replicate 5000 'a'⟩]
      = [⟨0, "Intro".data, "p".data, List.replicate 1200 'a'⟩,
         ⟨1, "Intro".data, "p".data, List.replicate 1200 'a'⟩,
         ⟨2, "Intro".data, "p".data, List.replicate 1200 'a'⟩,
         ⟨3, "Intro".data, "p".data,
           List.replicate 1200 'a' ++ JOINER ++ List.replicate 200 'a'⟩] := by
  have hsplit : splitLoop 5000 ("Intro".data) ("p".data) (List.replicate 5000 'a') []
      = [⟨0, "Intro".data, "p".data, List.replicate 1200 'a'⟩,
         ⟨1, "Intro".data, "p".data, List.replicate 1200 'a'⟩,
         ⟨2, "Intro".data, "p".data, List.replicate 1200 'a'⟩,
         ⟨3, "Intro".data, "p".data, List.replicate 1200 'a'⟩,
         ⟨4, "Intro".data, "p".data, List.replicate 200 'a'⟩] := by
    rw [show (5000 : Nat) = 4999 + 1 from rfl,
      splitLoop_replicate_step 4999 _ _ 5000 (by norm_num) []]
    norm_num [MAX_CHARS_PER_CHUNK]
    rw [show (4999 : Nat) = 4998 + 1 from rfl,
      splitLoop_replicate_step 4998 _ _ 3800 (by norm_num) _]
    norm_num [MAX_CHARS_PER_CHUNK]
    rw [show (4998 : Nat) = 4997 + 1 from rfl,
      splitLoop_replicate_step 4997 _ _ 2600 (by norm_num) _]
    norm_num [MAX_CHARS_PER_CHUNK]
    rw [show (4997 : Nat) = 4996 + 1 from rfl,
      splitLoop_replicate_step 4996 _ _ 1400 (by norm_num) _]
    norm_num [MAX_CHARS_PER_CHUNK]
    rw [show (4996 : Nat) = 4995 + 1 from rfl,
      splitLoop_replicate_step 4995 _ _ 200 (by norm_num) _]
    norm_num [MAX_CHARS_PER_CHUNK]
    rw [splitLoop_nil]
  have hstep := stepBlock_oversized ⟨"Intro".data, "p".data, List.replicate 5000 'a'⟩
    (by
      rw [show joinJ [List.replicate 5000 'a'] = List.replicate 5000 'a' from rfl]
      rw [normalize_ws_replicate 'a' (by decide) 5000, List.length_replicate]
      norm_num [MAX_CHARS_PER_CHUNK])
    (by
      show MAX_CHARS_PER_CHUNK < (List.replicate 5000 'a').length
      rw [List.length_replicate]
      norm_num [MAX_CHARS_PER_CHUNK])
  have hpre : preMergeChunks [⟨"Intro".data, "p".data, List.replicate 5000 'a'⟩]
      = [⟨0, "Intro".data, "p".data, List.replicate 1200 'a'⟩,
         ⟨1, "Intro".data, "p".data, List.replicate 1200 'a'⟩,
         ⟨2, "Intro".data, "p".data, List.replicate 1200 'a'⟩,
         ⟨3, "Intro".data, "p".data, List.replicate 1200 'a'⟩,
         ⟨4, "Intro".data, "p".data, List.replicate 200 'a'⟩] := by
    unfold preMergeChunks
    simp only [List.foldl_cons, List.foldl_nil]
    rw [hstep, List.length_replicate, hsplit]
    rfl
  have hjoin : normalize_ws (List.replicate 1200 'a' ++ JOINER ++ List.replicate 200 'a')
      = List.replicate 1200 'a' ++ JOINER ++ List.replicate 200 'a' :=
    normalize_ws_join_of_canon _ _ (canon_replicate 'a' (by decide) 1200)
      (canon_replicate 'a' (by decide) 200)
      (by rw [ne_eq, List.replicate_eq_nil_iff]; omega)
      (by rw [ne_eq, List.replicate_eq_nil_iff]; omega)
  have hjoin2 : normalize_ws (List.replicate 1200 'a' ++ (JOINER ++ List.replicate 200 'a'))
      = List.replicate 1200 'a' ++ (JOINER ++ List.replicate 200 'a') := by
    rw [← List.append_assoc]
    exact hjoin
  have hmerge : mergePass [⟨0, "Intro".data, "p".data, List.replicate 1200 'a'⟩,
         ⟨1, "Intro".data, "p".data, List.replicate 1200 'a'⟩,
         ⟨2, "Intro".data, "p".data, List.replicate 1200 'a'⟩,
         ⟨3, "Intro".data, "p".data, List.replicate 1200 'a'⟩,
         ⟨4, "Intro".data, "p".data, List.replicate 200 'a'⟩]
      = [⟨0, "Intro".data, "p".data, List.replicate 1200 'a'⟩,
         ⟨1, "Intro".data, "p".data, List.replicate 1200 'a'⟩,
         ⟨2, "Intro".data, "p".data, List.replicate 1200 'a'⟩,
         ⟨3, "Intro".data, "p".data,
           List.replicate 1200 'a' ++ JOINER ++ List.replicate 200 'a'⟩] := by
    unfold mergePass
    simp only [List.foldl_cons, List.foldl_nil, mergeRev, List.length_replicate]
    norm_num [MIN_CHARS_PER_CHUNK, hjoin2]
  unfold chunk_blocks
  rw [hpre, hmerge]
  rfl

/-- C2 counterexample: for a single 5,000-character block, `chunk_blocks`
does apply the minimum-size merge pass to the slices of the split block:
the final 200-character remainder slice is merged into the preceding
1200-character slice, so the function returns 4 chunks of lengths
1200/1200/1200/1402 — not the claimed 5 chunks with a standalone
200-character remainder. -/
theorem oversized_split_merge_counterexample :
    (chunk_blocks [⟨"Intro".data, "p".data, List.replicate 5000 'a'⟩]).map
        (fun c => c.text.length) = [1200, 1200, 1200, 1402]
      ∧ (chunk_blocks [⟨"Intro".data, "p".data, List.replicate 5000 'a'⟩]).length ≠ 5 := by
  rw [chunk_blocks_rep5000]
  constructor
  · simp only [List.map_cons, List.map_nil, List.length_append, List.length_replicate,
      JOINER, List.length_cons, List.length_nil]
  · simp only [List.length_cons, List.length_nil]
    omega

/-- C2 amended: for one block of 5,000 characters, `chunk_blocks` returns
exactly 4 chunks: three full 1200-character slices, and a final chunk
formed by the merge pass joining the fourth 1200-character slice with the
200-character remainder slice (1402 characters); only the final remainder
slice is subject to the minimum-size merge, and it is merged rather than
kept standalone. -/
theorem oversized_split_merge :
    chunk_blocks [⟨"Intro".data, "p".data, List.replicate 5000 'a'⟩]
      = [⟨0, "Intro".data, "p".data, List.replicate 1200 'a'⟩,
         ⟨1, "Intro".data, "p".data, List.replicate 1200 'a'⟩,
         ⟨2, "Intro".data, "p".data, List.replicate 1200 'a'⟩,
         ⟨3, "Intro".data, "p".data,
           List.replicate 1200 'a' ++ JOINER ++ List.replicate 200 'a'⟩] :=
  chunk_blocks_rep5000

/-! ### Lemmas for the rebuild-idempotence claim -/

theorem find?_map_upsert (p : Int) (t : List Char) (r : Int) :
    ∀ pages : List PageRow,
    pages.any (fun row => decide (row.page_id = p)) = true →
    List.find? (fun row => decide (row.page_id = p))
        (pages.map (fun row => if row.page_id = p then ⟨p, t, r⟩ else row))
      = some ⟨p, t, r⟩ := by
  intro pages
  induction pages with
  | nil => intro h; simp at h
  | cons row rows ih =>
    intro hany
    by_cases hrow : row.page_id = p
    · simp [List.find?, hrow]
    · have hany' : rows.any (fun row => decide (row.page_id = p)) = true := by
        simpa [List.any_cons, hrow] using hany
      simpa [List.find?, hrow] using ih hany'

theorem find?_append_upsert (p : Int) (t : List Char) (r : Int) :
    ∀ pages : List PageRow,
    ¬(pages.any (fun row => decide (row.page_id = p)) = true) →
    List.find? (fun row => decide (row.page_id = p)) (pages ++ [⟨p, t, r⟩])
      = some ⟨p, t, r⟩ := by
  intro pages
  induction pages with
  | nil => intro _; simp [List.find?]
  | cons row rows ih =>
    intro hany
    have hrow : ¬(row.page_id = p) := fun he => hany (by simp [List.any_cons, he])
    have hany' : ¬(rows.any (fun row => decide (row.page_id = p)) = true) :=
      fun ha => hany (by simp [List.any_cons, ha])
    simpa [List.find?, hrow] using ih hany'

theorem find?_map_other (p : Int) (t : List Char) (r : Int) (q : Int) (hq : q ≠ p) :
    ∀ pages : List PageRow,
    List.find? (fun row => decide (row.page_id = q))
        (pages.map (fun row => if row.page_id = p then ⟨p, t, r⟩ else row))
      = List.find? (fun row => decide (row.page_id = q)) pages := by
  intro pages
  induction pages with
  | nil => simp
  | cons row rows ih =>
    by_cases hrow : row.page_id = p
    · have hrq : ¬(row.page_id = q) := by
        rw [hrow]
        exact fun he => hq he.symm
      simp only [List.map_cons, if_pos hrow, List.find?]
      rw [show (decide ((⟨p, t, r⟩ : PageRow).page_id = q)) = false from
        decide_eq_false (fun he => hq he.symm)]
      rw [show (decide (row.page_id = q)) = false from decide_eq_false hrq]
      exact ih
    · simp only [List.map_cons, if_neg hrow, List.find?]
      cases hrq : decide (row.page_id = q) with
      | true => rfl
      | false => exact ih

theorem find?_append_other (p : Int) (t : List Char) (r : Int) (q : Int) (hq : q ≠ p)
    (pages : List PageRow) :
    List.find? (fun row => decide (row.page_id = q)) (pages ++ [⟨p, t, r⟩])
      = List.find? (fun row => decide (row.page_id = q)) pages := by
  rw [List.find?_append]
  have h1 : List.find? (fun row => decide (row.page_id = q)) [(⟨p, t, r⟩ : PageRow)]
      = none := by
    rw [List.find?_cons,
      show (decide ((⟨p, t, r⟩ : PageRow).page_id = q)) = false from
        decide_eq_false (fun he => hq he.symm)]
    rfl
  rw [h1]
  cases List.find? (fun row => decide (row.page_id = q)) pages <;> rfl

theorem get_existing_upsert_self (st : Store) (p : Int) (t : List Char) (r : Int) :
    get_existing_page (upsert_page st p t r) p = some ⟨p, t, r⟩ := by
  unfold get_existing_page upsert_page
  by_cases hany : st.pages.any (fun row => decide (row.page_id = p)) = true
  · rw [if_pos hany]
    exact find?_map_upsert p t r st.pages hany
  · rw [if_neg hany]
    exact find?_append_upsert p t r st.pages hany

theorem get_existing_upsert_other (st : Store) (p : Int) (t : List Char) (r : Int)
    (q : Int) (hq : q ≠ p) :
    get_existing_page (upsert_page st p t r) q = get_existing_page st q := by
  unfold get_existing_page upsert_page
  by_cases hany : st.pages.any (fun row => decide (row.page_id = p)) = true
  · rw [if_pos hany]
    exact find?_map_other p t r q hq st.pages
  · rw [if_neg hany]
    exact find?_append_other p t r q hq st.pages

theorem insert_chunks_pages (page_id : Int) (cs : List Chunk) :
    ∀ st : Store, ((insert_chunks st page_id cs).1).pages = st.pages := by
  induction cs with
  | nil => intro st; rfl
  | cons c cs ih =>
    intro st
    simp only [insert_chunks]
    exact ih _

theorem ensure_model_pages (st : Store) (mn : List Char) (dim : Nat) (dm : List Char) :
    ((ensure_model_row st mn dim dm).1).pages = st.pages := by
  unfold ensure_model_row
  cases st.models.find? (fun m => decide (m.name = mn)) <;> rfl

theorem rebuildPage_ok_inv {e : List (List Char) → Except Unit (Nat × List (List Nat))}
    {d : Bool} {m : List Char} {st : Store} {doc : PageDoc} {p : Int} {t : List Char}
    {r : Int} {st2 : Store} {out : PageOutcome}
    (h : rebuildPage e d m st doc p t r = .ok (st2, out)) :
    st2.pages = (upsert_page st p t r).pages ∧ out = .updated := by
  unfold rebuildPage at h
  cases d with
  | false =>
    rw [if_neg (by simp)] at h
    cases h
    refine ⟨?_, rfl⟩
    rw [insert_chunks_pages]
    rfl
  | true =>
    rw [if_pos rfl] at h
    cases hemb : e ((chunk_blocks (flatten_sections_to_blocks doc)).map (fun c => c.text)) with
    | error u => rw [hemb] at h; cases h
    | ok rr =>
      rw [hemb] at h
      cases h
      refine ⟨?_, rfl⟩
      show ((ensure_model_row
            ((insert_chunks (delete_page_children (upsert_page st p t r) p) p
              (chunk_blocks (flatten_sections_to_blocks doc))).1) m rr.1 ("cosine".data)).1).pages
          = (upsert_page st p t r).pages
      rw [ensure_model_pages, insert_chunks_pages]
      rfl

theorem extract_ok_inv {doc : PageDoc} {p : Int} {t : List Char} {r : Int}
    (h : extract_page_identity doc = .ok (p, t, r)) :
    doc.pageid = some p ∧ doc.revid = some r ∧ t = pyOr doc.title ("Unknown".data) := by
  unfold extract_page_identity at h
  cases hp : doc.pageid with
  | none => rw [hp] at h; cases doc.revid <;> cases h
  | some p' =>
    cases hr : doc.revid with
    | none => rw [hp, hr] at h; cases h
    | some r' =>
      rw [hp, hr] at h
      cases h
      exact ⟨rfl, rfl, rfl⟩

theorem processPage_skipped {e : List (List Char) → Except Unit (Nat × List (List Nat))}
    {d : Bool} {m : List Char} {st : Store} {doc : PageDoc} {st' : Store}
    (h : processPage e d m st doc = .ok (st', .skipped)) :
    st' = st ∧ ∃ (p : Int) (r : Int) (row : PageRow), doc.pageid = some p
      ∧ doc.revid = some r ∧ get_existing_page st p = some row ∧ row.revid = r := by
  unfold processPage at h
  cases hb : pageBody e d m st doc with
  | error tx =>
    rw [hb] at h
    cases tx <;> simp at h
  | ok res =>
    rw [hb] at h
    cases h
    unfold pageBody at hb
    cases hE : extract_page_identity doc with
    | error u => rw [hE] at hb; cases hb
    | ok triple =>
      obtain ⟨p, t, r⟩ := triple
      rw [hE] at hb
      simp only at hb
      obtain ⟨hp, hr, ht⟩ := extract_ok_inv hE
      cases hG : get_existing_page st p with
      | none =>
        rw [hG] at hb
        simp only at hb
        cases (rebuildPage_ok_inv hb).2
      | some row =>
        rw [hG] at hb
        simp only at hb
        by_cases hrev : row.revid = r
        · rw [if_pos hrev] at hb
          cases hb
          exact ⟨rfl, p, r, row, hp, hr, hG, hrev⟩
        · rw [if_neg hrev] at hb
          cases (rebuildPage_ok_inv hb).2

theorem processPage_updated {e : List (List Char) → Except Unit (Nat × List (List Nat))}
    {d : Bool} {m : List Char} {st : Store} {doc : PageDoc} {st' : Store}
    (h : processPage e d m st doc = .ok (st', .updated)) :
    ∃ (p : Int) (r : Int), doc.pageid = some p ∧ doc.revid = some r
      ∧ get_existing_page st' p = some ⟨p, pyOr doc.title ("Unknown".data), r⟩ := by
  unfold processPage at h
  cases hb : pageBody e d m st doc with
  | error tx =>
    rw [hb] at h
    cases tx <;> simp at h
  | ok res =>
    rw [hb] at h
    cases h
    unfold pageBody at hb
    cases hE : extract_page_identity doc with
    | error u => rw [hE] at hb; cases hb
    | ok triple =>
      obtain ⟨p, t, r⟩ := triple
      rw [hE] at hb
      simp only at hb
      obtain ⟨hp, hr, ht⟩ := extract_ok_inv hE
      have hlook : ∀ {st2 : Store},
          rebuildPage e d m st doc p t r = .ok (st2, .updated) →
          get_existing_page st2 p = some ⟨p, pyOr doc.title ("Unknown".data), r⟩ := by
        intro st2 hreb
        obtain ⟨hpages, _⟩ := rebuildPage_ok_inv hreb
        unfold get_existing_page
        rw [hpages, ← ht]
        exact get_existing_upsert_self st p t r
      cases hG : get_existing_page st p with
      | none =>
        rw [hG] at hb
        simp only at hb
        exact ⟨p, r, hp, hr, hlook hb⟩
      | some row =>
        rw [hG] at hb
        simp only at hb
        by_cases hrev : row.revid = r
        · rw [if_pos hrev] at hb
          cases hb
        · rw [if_neg hrev] at hb
          exact ⟨p, r, hp, hr, hlook hb⟩

theorem processPage_errored {e : List (List Char) → Except Unit (Nat × List (List Nat))}
    {d : Bool} {m : List Char} {st : Store} {doc : PageDoc} {st' : Store}
    (h : processPage e d m st doc = .ok (st', .errored)) : st' = st := by
  unfold processPage at h
  cases hb : pageBody e d m st doc with
  | error tx =>
    rw [hb] at h
    cases tx with
    | false => cases h
    | true =>
      simp only [if_pos rfl] at h
      cases h
      rfl
  | ok res =>
    rw [hb] at h
    cases h
    unfold pageBody at hb
    cases hE : extract_page_identity doc with
    | error u => rw [hE] at hb; cases hb
    | ok triple =>
      obtain ⟨p, t, r⟩ := triple
      rw [hE] at hb
      simp only at hb
      cases hG : get_existing_page st p with
      | none =>
        rw [hG] at hb
        simp only at hb
        cases (rebuildPage_ok_inv hb).2
      | some row =>
        rw [hG] at hb
        simp only at hb
        by_cases hrev : row.revid = r
        · rw [if_pos hrev] at hb
          cases hb
        · rw [if_neg hrev] at hb
          cases (rebuildPage_ok_inv hb).2

theorem processPage_frame {e : List (List Char) → Except Unit (Nat × List (List Nat))}
    {d : Bool} {m : List Char} {st : Store} {doc : PageDoc} {st' : Store}
    {out : PageOutcome} (h : processPage e d m st doc = .ok (st', out))
    (q : Int) (hq : doc.pageid ≠ some q) :
    get_existing_page st' q = get_existing_page st q := by
  unfold processPage at h
  cases hb : pageBody e d m st doc with
  | error tx =>
    rw [hb] at h
    cases tx with
    | false => cases h
    | true =>
      simp only [if_pos rfl] at h
      cases h
      rfl
  | ok res =>
    rw [hb] at h
    cases h
    unfold pageBody at hb
    cases hE : extract_page_identity doc with
    | error u => rw [hE] at hb; cases hb
    | ok triple =>
      obtain ⟨p, t, r⟩ := triple
      rw [hE] at hb
      simp only at hb
      obtain ⟨hp, hr, ht⟩ := extract_ok_inv hE
      have hpq : q ≠ p := by
        intro he
        subst he
        exact hq hp
      have hreb : ∀ {st2 : Store} {o : PageOutcome},
          rebuildPage e d m st doc p t r = .ok (st2, o) →
          get_existing_page st2 q = get_existing_page st q := by
        intro st2 o hrb
        obtain ⟨hpages, _⟩ := rebuildPage_ok_inv hrb
        unfold get_existing_page
        rw [hpages]
        exact get_existing_upsert_other st p t r q hpq
      cases hG : get_existing_page st p with
      | none =>
        rw [hG] at hb
        simp only at hb
        exact hreb hb
      | some row =>
        rw [hG] at hb
        simp only at hb
        by_cases hrev : row.revid = r
        · rw [if_pos hrev] at hb
          cases hb
          rfl
        · rw [if_neg hrev] at hb
          exact hreb hb

theorem buildLoop_counters {e : List (List Char) → Except Unit (Nat × List (List Nat))}
    {d : Bool} {m : List Char} : ∀ (docs : List PageDoc) (st : Store) (u s : Nat)
    (st1 : Store) (u1 s1 : Nat),
    buildLoop e d m st u s docs = .ok (st1, u1, s1) → u1 + s1 ≤ u + s + docs.length := by
  intro docs
  induction docs with
  | nil =>
    intro st u s st1 u1 s1 h
    cases h
    simp
  | cons doc rest ih =>
    intro st u s st1 u1 s1 h
    unfold buildLoop at h
    cases hp : processPage e d m st doc with
    | error er => rw [hp] at h; cases h
    | ok res =>
      obtain ⟨st', out⟩ := res
      rw [hp] at h
      cases out with
      | skipped =>
        simp only at h
        have := ih st' u (s + 1) st1 u1 s1 h
        simp only [List.length_cons]
        omega
      | updated =>
        simp only at h
        have := ih st' (u + 1) s st1 u1 s1 h
        simp only [List.length_cons]
        omega
      | errored =>
        simp only at h
        have := ih st' u s st1 u1 s1 h
        simp only [List.length_cons]
        omega

theorem buildLoop_frame {e : List (List Char) → Except Unit (Nat × List (List Nat))}
    {d : Bool} {m : List Char} (q : Int) : ∀ (docs : List PageDoc) (st : Store)
    (u s : Nat) (st1 : Store) (u1 s1 : Nat),
    buildLoop e d m st u s docs = .ok (st1, u1, s1) →
    (∀ doc ∈ docs, doc.pageid ≠ some q) →
    get_existing_page st1 q = get_existing_page st q := by
  intro docs
  induction docs with
  | nil =>
    intro st u s st1 u1 s1 h _
    cases h
    rfl
  | cons doc rest ih =>
    intro st u s st1 u1 s1 h hne
    unfold buildLoop at h
    cases hp : processPage e d m st doc with
    | error er => rw [hp] at h; cases h
    | ok res =>
      obtain ⟨st', out⟩ := res
      rw [hp] at h
      have hstep := processPage_frame hp q (hne doc (List.mem_cons_self doc rest))
      have hne' : ∀ d' ∈ rest, d'.pageid ≠ some q :=
        fun d' hd' => hne d' (List.mem_cons_of_mem doc hd')
      cases out with
      | skipped =>
        simp only at h
        rw [ih st' u (s + 1) st1 u1 s1 h hne']
        exact hstep
      | updated =>
        simp only at h
        rw [ih st' (u + 1) s st1 u1 s1 h hne']
        exact hstep
      | errored =>
        simp only at h
        rw [ih st' u s st1 u1 s1 h hne']
        exact hstep

theorem buildLoop_post {e : List (List Char) → Except Unit (Nat × List (List Nat))}
    {d : Bool} {m : List Char} : ∀ (docs : List PageDoc) (st : Store) (u s : Nat)
    (st1 : Store) (u1 s1 : Nat),
    buildLoop e d m st u s docs = .ok (st1, u1, s1) →
    u1 + s1 = u + s + docs.length →
    (docs.map (fun doc => doc.pageid)).Nodup →
    ∀ doc ∈ docs, ∃ (p : Int) (r : Int) (row : PageRow), doc.pageid = some p
      ∧ doc.revid = some r ∧ get_existing_page st1 p = some row ∧ row.revid = r := by
  intro docs
  induction docs with
  | nil => intro st u s st1 u1 s1 _ _ _ doc hd; cases hd
  | cons doc rest ih =>
    intro st u s st1 u1 s1 h hfull hnodup
    simp only [List.map_cons, List.nodup_cons] at hnodup
    unfold buildLoop at h
    cases hp : processPage e d m st doc with
    | error er => rw [hp] at h; cases h
    | ok res =>
      obtain ⟨st', out⟩ := res
      rw [hp] at h
      cases out with
      | errored =>
        exfalso
        simp only at h
        have := buildLoop_counters rest st' u s st1 u1 s1 h
        simp only [List.length_cons] at hfull
        omega
      | skipped =>
        simp only at h
        obtain ⟨hst, p, r, row, hp', hr', hG, hrev⟩ := processPage_skipped hp
        rw [hst] at h
        intro d' hd'
        rcases List.mem_cons.mp hd' with rfl | hmem
        · have hne : ∀ d'' ∈ rest, d''.pageid ≠ some p := by
            intro d'' hd'' he
            exact hnodup.1 (by rw [hp']; rw [← he]; exact List.mem_map_of_mem _ hd'')
          have hframe := buildLoop_frame p rest st u (s + 1) st1 u1 s1 h hne
          exact ⟨p, r, row, hp', hr', by rw [hframe]; exact hG, hrev⟩
        · refine ih st u (s + 1) st1 u1 s1 h ?_ hnodup.2 d' hmem
          simp only [List.length_cons] at hfull
          omega
      | updated =>
        simp only at h
        obtain ⟨p, r, hp', hr', hG'⟩ := processPage_updated hp
        intro d' hd'
        rcases List.mem_cons.mp hd' with rfl | hmem
        · have hne : ∀ d'' ∈ rest, d''.pageid ≠ some p := by
            intro d'' hd'' he
            exact hnodup.1 (by rw [hp']; rw [← he]; exact List.mem_map_of_mem _ hd'')
          have hframe := buildLoop_frame p rest st' (u + 1) s st1 u1 s1 h hne
          exact ⟨p, r, ⟨p, pyOr d'.title ("Unknown".data), r⟩, hp', hr',
            by rw [hframe]; exact hG', rfl⟩
        · refine ih st' (u + 1) s st1 u1 s1 h ?_ hnodup.2 d' hmem
          simp only [List.length_cons] at hfull
          omega

theorem processPage_skip_of {e : List (List Char) → Except Unit (Nat × List (List Nat))}
    {d : Bool} {m : List Char} {st : Store} {doc : PageDoc} {p r : Int} {row : PageRow}
    (hp : doc.pageid = some p) (hr : doc.revid = some r)
    (hG : get_existing_page st p = some row) (hrev : row.revid = r) :
    processPage e d m st doc = .ok (st, .skipped) := by
  unfold processPage pageBody extract_page_identity
  rw [hp, hr]
  simp only
  rw [hG]
  simp only
  rw [if_pos hrev]

theorem buildLoop_skip_all {e : List (List Char) → Except Unit (Nat × List (List Nat))}
    {d : Bool} {m : List Char} : ∀ (docs : List PageDoc) (st : Store) (u s : Nat),
    (∀ doc ∈ docs, ∃ (p : Int) (r : Int) (row : PageRow), doc.pageid = some p
      ∧ doc.revid = some r ∧ get_existing_page st p = some row ∧ row.revid = r) →
    buildLoop e d m st u s docs = .ok (st, u, s + docs.length) := by
  intro docs
  induction docs with
  | nil => intro st u s _; simp [buildLoop]
  | cons doc rest ih =>
    intro st u s hready
    obtain ⟨p, r, row, hp, hr, hG, hrev⟩ := hready doc (List.mem_cons_self doc rest)
    unfold buildLoop
    rw [processPage_skip_of hp hr hG hrev]
    simp only
    rw [ih st u (s + 1) (fun d' hd' => hready d' (List.mem_cons_of_mem doc hd'))]
    simp only [List.length_cons]
    rw [show s + 1 + rest.length = s + (rest.length + 1) from by omega]

/-- C4: if a full run of `build_database` succeeds with every page either
updated or skipped (counters sum to the page count) on documents with
pairwise distinct page identifiers, then running the loop again over the
same documents and the resulting store performs no writes at all: the store
is returned unchanged, nothing is updated, and the skip counter equals the
total page count. -/
theorem rebuild_idempotent (e : List (List Char) → Except Unit (Nat × List (List Nat)))
    (d : Bool) (m : List Char) (docs : List PageDoc) (st1 : Store) (u s : Nat)
    (hrun1 : build_database e d m docs = .ok (st1, u, s))
    (hfull : u + s = docs.length)
    (hnodup : (docs.map (fun doc => doc.pageid)).Nodup) :
    buildLoop e d m st1 0 0 docs = .ok (st1, 0, docs.length) := by
  unfold build_database at hrun1
  have hpost := buildLoop_post docs emptyStore 0 0 st1 u s hrun1 (by omega) hnodup
  have hskip := @buildLoop_skip_all e d m docs st1 0 0 hpost
  simpa using hskip

/-- C4 witness: after a successful run that stored page 1 at revid 10, a
second run over the same document skips it and leaves the store unchanged,
with skip counter 1 = total page count. -/
theorem rebuild_idempotent_witness :
    buildLoop (fun _ => .error ()) false ("m".data)
        ⟨[⟨1, "A".data, 10⟩], [], [], [], 1, 1⟩ 0 0
        [⟨some 1, some 10, some ("A".data), []⟩]
      = .ok (⟨[⟨1, "A".data, 10⟩], [], [], [], 1, 1⟩, 0, 1) :=
  rebuild_idempotent (fun _ => .error ()) false ("m".data)
    [⟨some 1, some 10, some ("A".data), []⟩] ⟨[⟨1, "A".data, 10⟩], [], [], [], 1, 1⟩ 1 0
    (by rfl) (by decide) (by decide)
